import Mathlib

/-!
Verification of the `nbt` Go package (github.com/njhanley/nbt): a recursive
binary codec for the Named Binary Tag tree format together with a
type-preserving JSON bridge.

The development shallowly embeds the canonical sources of the repository:

* `decode.go`   — the stream decoder (`Decoder.Decode` and its readers);
* `encode.go`   — the writer (`Encoder.Encode`, `Encoder.SortCompounds`,
  and the `write*` family);
* `types.go`    — the data model (`Type`, `NamedTag`, `List`, `Compound`)
  and the JSON bridge helpers (`payloadMarshalJSON`, `byteArray`, ...).

Byte streams are modelled as `List Nat` with every element below 256.
Machine integers are modelled as `Int` together with explicit reductions
modulo `2 ^ width`.  Go `float32` / `float64` payloads are carried as their
IEEE-754 bit patterns (a `Nat` below `2 ^ 32` / `2 ^ 64`): the binary codec
only ever reinterprets the bits, so this embedding is bit-exact.  Dynamic
(`interface{}`) payloads become a closed sum covering exactly the dynamic
types the package stores.  The decoder's unbounded loops are driven by an
explicit fuel argument; `Decode` supplies `input length + 1` fuel, which is
proved sufficient for every encoded tree.
-/

set_option maxHeartbeats 2000000
set_option maxRecDepth 8192

namespace NBT

/-! ## Bytes and fixed-width big-endian integers -/

/-- Signed maximum of a 16-bit length field (`math.MaxInt16`). -/
def maxShort : Nat := 32767

/-- Signed maximum of a 32-bit length field (`math.MaxInt32`). -/
def maxInt32 : Nat := 2147483647

/-- Big-endian bytes of `u`, exactly `w` bytes wide (as `encoding/binary`
`BigEndian` writes a `w`-byte unsigned value). -/
def bytesBE : Nat → Nat → List Nat
  | 0, _ => []
  | w + 1, u => bytesBE w (u / 256) ++ [u % 256]

/-- Reassemble a big-endian byte list into a natural number. -/
def natOfBytes (bs : List Nat) : Nat := bs.foldl (fun a b => a * 256 + b) 0

/-- Two's-complement reading of a `bits`-wide unsigned value. -/
def signedOfNat (bits : Nat) (u : Nat) : Int :=
  if u < 2 ^ (bits - 1) then (u : Int) else (u : Int) - 2 ^ bits

/-- Two's-complement representation of an integer, `bits` wide. -/
def natOfInt (bits : Nat) (n : Int) : Nat := (n % (2 : Int) ^ bits).toNat

/-- The `w` bytes `encoding/binary` writes for a signed `8*w`-bit integer. -/
def intBytes (w : Nat) (n : Int) : List Nat := bytesBE w (natOfInt (8 * w) n)

theorem length_bytesBE (w u : Nat) : (bytesBE w u).length = w := by
  induction w generalizing u with
  | zero => rfl
  | succ w ih => simp [bytesBE, ih]

theorem natOfBytes_append_one (bs : List Nat) (b : Nat) :
    natOfBytes (bs ++ [b]) = natOfBytes bs * 256 + b := by
  simp [natOfBytes, List.foldl_append]

theorem natOfBytes_bytesBE (w u : Nat) (h : u < 256 ^ w) :
    natOfBytes (bytesBE w u) = u := by
  induction w generalizing u with
  | zero =>
    interval_cases u
    rfl
  | succ w ih =>
    have hdiv : u / 256 < 256 ^ w := by
      rw [Nat.div_lt_iff_lt_mul (by norm_num)]
      calc u < 256 ^ (w + 1) := h
        _ = 256 ^ w * 256 := by ring
    have := ih (u / 256) hdiv
    calc natOfBytes (bytesBE (w + 1) u)
        = natOfBytes (bytesBE w (u / 256)) * 256 + u % 256 := by
          rw [bytesBE, natOfBytes_append_one]
      _ = u / 256 * 256 + u % 256 := by rw [this]
      _ = u := by omega

theorem natOfInt_lt (bits : Nat) (n : Int) : natOfInt bits n < 2 ^ bits := by
  have hpos : (0 : Int) < 2 ^ bits := by positivity
  have h1 : n % (2 : Int) ^ bits < 2 ^ bits := Int.emod_lt_of_pos n hpos
  have h0 : (0 : Int) ≤ n % (2 : Int) ^ bits := Int.emod_nonneg n (by positivity)
  have : ((natOfInt bits n : Nat) : Int) < ((2 ^ bits : Nat) : Int) := by
    rw [natOfInt, Int.toNat_of_nonneg h0]
    push_cast
    exact h1
  exact_mod_cast this

theorem natOfInt_of_nonneg {bits : Nat} {n : Int} (h0 : 0 ≤ n)
    (h1 : n < 2 ^ bits) : (natOfInt bits n : Int) = n := by
  rw [natOfInt, Int.emod_eq_of_lt h0 h1, Int.toNat_of_nonneg h0]

theorem natOfInt_of_neg {bits : Nat} {n : Int} (h0 : n < 0)
    (h1 : -2 ^ bits ≤ n) : (natOfInt bits n : Int) = n + 2 ^ bits := by
  have heq : n % (2 : Int) ^ bits = n + 2 ^ bits := by
    have h2 := Int.add_mul_emod_self_left (a := n) (b := (2 : Int) ^ bits) (c := 1)
    have h3 : (n + 2 ^ bits) % (2 : Int) ^ bits = n + 2 ^ bits :=
      Int.emod_eq_of_lt (by omega) (by omega)
    rw [mul_one] at h2
    omega
  rw [natOfInt, heq, Int.toNat_of_nonneg (by omega)]

theorem signedOfNat_natOfInt {bits : Nat} {n : Int} (hbits : 1 ≤ bits)
    (hlo : -2 ^ (bits - 1) ≤ n) (hhi : n < 2 ^ (bits - 1)) :
    signedOfNat bits (natOfInt bits n) = n := by
  have hsplit : 2 ^ bits = 2 ^ (bits - 1) * 2 := by
    rw [← pow_succ]
    congr 1
    omega
  have hsplit' : (2 : Int) ^ bits = 2 ^ (bits - 1) * 2 := by
    rw [← pow_succ]
    congr 1
    omega
  rcases le_or_lt 0 n with h0 | h0
  · have h1 : n < 2 ^ bits := by
      have : (2 : Int) ^ (bits - 1) ≤ 2 ^ bits := by
        rw [hsplit']
        nlinarith [pow_pos (by norm_num : (0 : Int) < 2) (bits - 1)]
      omega
    have hv := natOfInt_of_nonneg h0 h1
    have hlt : natOfInt bits n < 2 ^ (bits - 1) := by
      have : ((natOfInt bits n : Nat) : Int) < ((2 ^ (bits - 1) : Nat) : Int) := by
        rw [hv]
        push_cast
        exact hhi
      exact_mod_cast this
    rw [signedOfNat, if_pos hlt, hv]
  · have h1 : -2 ^ bits ≤ n := by
      have : (0 : Int) ≤ 2 ^ (bits - 1) := by positivity
      omega
    have hv := natOfInt_of_neg h0 h1
    have hge : ¬ natOfInt bits n < 2 ^ (bits - 1) := by
      intro hcon
      have hcon' : ((natOfInt bits n : Nat) : Int) < ((2 ^ (bits - 1) : Nat) : Int) := by
        exact_mod_cast hcon
      rw [hv] at hcon'
      push_cast at hcon'
      omega
    rw [signedOfNat, if_neg hge, hv]
    ring

theorem signedOfNat_small {bits u : Nat} (h : u < 2 ^ (bits - 1)) :
    signedOfNat bits u = (u : Int) := by
  rw [signedOfNat, if_pos h]

theorem length_intBytes (w : Nat) (n : Int) : (intBytes w n).length = w :=
  length_bytesBE w _

theorem natOfBytes_intBytes (w : Nat) (n : Int) :
    natOfBytes (intBytes w n) = natOfInt (8 * w) n := by
  apply natOfBytes_bytesBE
  have h := natOfInt_lt (8 * w) n
  calc natOfInt (8 * w) n < 2 ^ (8 * w) := h
    _ = 256 ^ w := by
      rw [pow_mul]
      norm_num

theorem signedOfNat_natOfBytes_intBytes {w : Nat} {n : Int} (hw : 1 ≤ w)
    (hlo : -2 ^ (8 * w - 1) ≤ n) (hhi : n < 2 ^ (8 * w - 1)) :
    signedOfNat (8 * w) (natOfBytes (intBytes w n)) = n := by
  rw [natOfBytes_intBytes]
  exact signedOfNat_natOfInt (by omega) hlo hhi

/-! ## Exact-length stream reads

`takeN k bs` returns the first `k` bytes and the remainder, or `none` when
the stream is too short (modelling a short read from `binary.Read`, which
Go surfaces as an I/O error). -/

def takeN : Nat → List Nat → Option (List Nat × List Nat)
  | 0, bs => some ([], bs)
  | _ + 1, [] => none
  | k + 1, b :: bs => (takeN k bs).map (fun p => (b :: p.1, p.2))

theorem takeN_append (xs rest : List Nat) :
    takeN xs.length (xs ++ rest) = some (xs, rest) := by
  induction xs with
  | nil => rfl
  | cons b bs ih => simp [takeN, ih]

theorem takeN_append_of_length {k : Nat} {xs : List Nat} (h : xs.length = k)
    (rest : List Nat) : takeN k (xs ++ rest) = some (xs, rest) := by
  subst h
  exact takeN_append xs rest

/-! ## The tag-type registry (`types.go`: `Type`, `TypeEnd` … `TypeLongArray`) -/

/-- The closed 13-tag enumeration (`type Type byte` with constants
`TypeEnd = 0` through `TypeLongArray = 12`). -/
inductive Ty where
  | TypeEnd
  | TypeByte
  | TypeShort
  | TypeInt
  | TypeLong
  | TypeFloat
  | TypeDouble
  | TypeByteArray
  | TypeString
  | TypeList
  | TypeCompound
  | TypeIntArray
  | TypeLongArray
deriving DecidableEq, Repr

/-- Numeric value of a tag type (the byte written on the wire). -/
def Ty.toByte : Ty → Nat
  | .TypeEnd => 0
  | .TypeByte => 1
  | .TypeShort => 2
  | .TypeInt => 3
  | .TypeLong => 4
  | .TypeFloat => 5
  | .TypeDouble => 6
  | .TypeByteArray => 7
  | .TypeString => 8
  | .TypeList => 9
  | .TypeCompound => 10
  | .TypeIntArray => 11
  | .TypeLongArray => 12

/-! ## The data model (`types.go`)

Go stores payloads as `interface{}` values and downcasts at use sites.  The
dynamic types the package ever stores are closed: the six numeric scalars,
`[]byte`, `string`, `*List`, `Compound`, `[]int32`, `[]int64`, plus the
`nil` payload of an `End` tag — `Value` below.  A `List` stores its element
tag and a dynamically typed array (`List.Array interface{}`): the dynamic
array types are the per-element slices — `Arr` below, where `aNil` is the
`nil` interface.  `Lists`, `Compounds` and `Entries` are inlined list types
(for `[]*List`, `[]Compound`, and the `Compound` map's entries in iteration
order) so that all recursion over the model is structural.

A Go `string` is an opaque byte sequence: names and string payloads are
`List Nat`.  A `Compound` (`map[string]*Tag`) is modelled as its entries in
iteration order; decoding produces entries in stream order and encoding
consumes them in list order (Go map iteration order is arbitrary, which is
why the round-trip statement only fixes compound entries up to
permutation). -/

mutual

inductive Value where
  | vNil
  | vByte (n : Int)
  | vShort (n : Int)
  | vInt (n : Int)
  | vLong (n : Int)
  | vFloat (bits : Nat)
  | vDouble (bits : Nat)
  | vByteArray (bs : List Nat)
  | vString (s : List Nat)
  | vList (l : NbtList)
  | vCompound (m : Entries)
  | vIntArray (xs : List Int)
  | vLongArray (xs : List Int)
deriving DecidableEq, Repr

inductive NbtList where
  | mk (t : Ty) (a : Arr)
deriving DecidableEq, Repr

inductive Arr where
  | aNil
  | aByte (xs : List Int)
  | aShort (xs : List Int)
  | aInt (xs : List Int)
  | aLong (xs : List Int)
  | aFloat (xs : List Nat)
  | aDouble (xs : List Nat)
  | aByteArray (xs : List (List Nat))
  | aString (xs : List (List Nat))
  | aList (xs : Lists)
  | aCompound (xs : Compounds)
  | aIntArray (xs : List (List Int))
  | aLongArray (xs : List (List Int))
deriving DecidableEq, Repr

inductive Lists where
  | nil
  | cons (l : NbtList) (rest : Lists)
deriving DecidableEq, Repr

inductive Compounds where
  | nil
  | cons (m : Entries) (rest : Compounds)
deriving DecidableEq, Repr

inductive Entries where
  | nil
  | cons (name : List Nat) (t : Ty) (v : Value) (rest : Entries)
deriving DecidableEq, Repr

end

/-- The element tag of a list (`List.Type`). -/
def NbtList.t : NbtList → Ty
  | .mk t _ => t

/-- The dynamic array of a list (`List.Array`). -/
def NbtList.a : NbtList → Arr
  | .mk _ a => a

/-- `NamedTag` (`types.go`): `{Type, Name, Payload}`, the decoded document
root and the unit stored under a compound key. -/
structure NamedTag where
  typ : Ty
  name : List Nat
  payload : Value
deriving DecidableEq, Repr

/-- One compound entry as a plain tuple: name, tag type, payload. -/
abbrev Entry := List Nat × Ty × Value

def entriesToList : Entries → List Entry
  | .nil => []
  | .cons name t v rest => (name, t, v) :: entriesToList rest

def entriesOfList : List Entry → Entries
  | [] => .nil
  | (name, t, v) :: rest => .cons name t v (entriesOfList rest)

theorem entriesToList_ofList (l : List Entry) :
    entriesToList (entriesOfList l) = l := by
  induction l with
  | nil => rfl
  | cons e rest ih =>
    obtain ⟨name, t, v⟩ := e
    simp [entriesOfList, entriesToList, ih]

theorem entriesOfList_toList (m : Entries) :
    entriesOfList (entriesToList m) = m := by
  match m with
  | .nil => rfl
  | .cons name t v rest => simp [entriesToList, entriesOfList, entriesOfList_toList rest]

def listsToList : Lists → List NbtList
  | .nil => []
  | .cons l rest => l :: listsToList rest

def compoundsToList : Compounds → List Entries
  | .nil => []
  | .cons m rest => m :: compoundsToList rest

/-- The names bound in a compound, in iteration order. -/
def entryNames : Entries → List (List Nat)
  | .nil => []
  | .cons name _ _ rest => name :: entryNames rest

/-- Membership test used by the decoder's duplicate check
(`if _, exists := m[tag.Name]; exists`). -/
def containsName : Entries → List Nat → Bool
  | .nil, _ => false
  | .cons name _ _ rest, s => name = s || containsName rest s

/-- Concatenation of entry sequences. -/
def entAppend : Entries → Entries → Entries
  | .nil, m => m
  | .cons name t v rest, m => .cons name t v (entAppend rest m)

theorem entAppend_nil (m : Entries) : entAppend m .nil = m := by
  match m with
  | .nil => rfl
  | .cons name t v rest => simp [entAppend, entAppend_nil rest]

theorem entAppend_assoc (m₁ m₂ m₃ : Entries) :
    entAppend (entAppend m₁ m₂) m₃ = entAppend m₁ (entAppend m₂ m₃) := by
  match m₁ with
  | .nil => rfl
  | .cons name t v rest => simp [entAppend, entAppend_assoc rest m₂ m₃]

/-! ## Sorted-compound mode (`Encoder.writeCompound` with `sortCompounds`)

Go builds a slice of the compound's entries and sorts it with
`sort.Slice(a, func(i, j int) bool { return a[i].Name < a[j].Name })`.
Go's `<` on strings is bytewise lexicographic comparison, which is exactly
the lexicographic order on `List Nat`. -/

/-- Entry comparison by name (the `a[i].Name < a[j].Name` order, reflexive
closure). -/
def entryLe (a b : Entry) : Prop := a.1 ≤ b.1

instance : DecidableRel entryLe := fun a b =>
  inferInstanceAs (Decidable (a.1 ≤ b.1))

instance : IsTotal Entry entryLe := ⟨fun a b => le_total a.1 b.1⟩

instance : IsTrans Entry entryLe := ⟨fun _ _ _ h₁ h₂ => le_trans h₁ h₂⟩

/-- Sort a compound's entries into ascending lexical name order. -/
def sortEntries (m : Entries) : Entries :=
  entriesOfList (List.insertionSort entryLe (entriesToList m))

/-! ## The encoder (`encode.go`: `Encoder`)

All writers return `Option (List Nat)`: `some bs` is the byte stream
handed to the underlying writer, `none` is an encode error (a length
overflowing its field, or a recovered `TypeAssertionError` /
`reflect.ValueError` from a payload whose dynamic type does not match its
declared tag).  The mutually recursive writers take fuel so that all
recursion is structural; `Encode` supplies fuel that is proved sufficient
for every tree. -/

/-- `Encoder.writeType`: a tag type is one unsigned byte. -/
def writeType (t : Ty) : List Nat := [t.toByte]

/-- `Encoder.writeLength`: a 32-bit length field; overflowing
`math.MaxInt32` is a hard error raised before anything is written. -/
def writeLength (length : Nat) : Option (List Nat) :=
  if length > maxInt32 then none else some (intBytes 4 (length : Int))

/-- `Encoder.writeString`: 16-bit length prefix (checked against
`math.MaxInt16`) followed by the raw bytes. -/
def writeString (s : List Nat) : Option (List Nat) :=
  if s.length > maxShort then none else some (intBytes 2 (s.length : Int) ++ s)

/-- `Encoder.writeByteArray`. -/
def writeByteArray (b : List Nat) : Option (List Nat) :=
  (writeLength b.length).map (· ++ b)

/-- `Encoder.writeIntArray`. -/
def writeIntArray (a : List Int) : Option (List Nat) :=
  (writeLength a.length).map (· ++ (a.map (intBytes 4)).flatten)

/-- `Encoder.writeLongArray`. -/
def writeLongArray (a : List Int) : Option (List Nat) :=
  (writeLength a.length).map (· ++ (a.map (intBytes 8)).flatten)

/-- `binary.Write(w, binary.BigEndian, tag.Payload)` on a dynamically typed
scalar payload: fixed-size values and slices of fixed-size values are
written raw (each element big-endian, no length prefix); strings, pointers,
maps and `nil` are rejected with an error. -/
def binWrite : Value → Option (List Nat)
  | .vNil => none
  | .vByte n => some (intBytes 1 n)
  | .vShort n => some (intBytes 2 n)
  | .vInt n => some (intBytes 4 n)
  | .vLong n => some (intBytes 8 n)
  | .vFloat bits => some (bytesBE 4 bits)
  | .vDouble bits => some (bytesBE 8 bits)
  | .vByteArray bs => some bs
  | .vString _ => none
  | .vList _ => none
  | .vCompound _ => none
  | .vIntArray xs => some ((xs.map (intBytes 4)).flatten)
  | .vLongArray xs => some ((xs.map (intBytes 8)).flatten)

/-- `binary.Write(w, binary.BigEndian, l.Array)` on a list's dynamic array:
slices of fixed-size scalars are written raw; slices of slices, strings,
pointers or maps — and the `nil` interface — are errors. -/
def binWriteArr : Arr → Option (List Nat)
  | .aByte xs => some ((xs.map (intBytes 1)).flatten)
  | .aShort xs => some ((xs.map (intBytes 2)).flatten)
  | .aInt xs => some ((xs.map (intBytes 4)).flatten)
  | .aLong xs => some ((xs.map (intBytes 8)).flatten)
  | .aFloat xs => some ((xs.map (bytesBE 4)).flatten)
  | .aDouble xs => some ((xs.map (bytesBE 8)).flatten)
  | _ => none

def listsLen : Lists → Nat
  | .nil => 0
  | .cons _ rest => 1 + listsLen rest

def compoundsLen : Compounds → Nat
  | .nil => 0
  | .cons _ rest => 1 + compoundsLen rest

/-- `reflect.ValueOf(a).Len()`: `none` models the `reflect.ValueError`
panic on a `nil` interface (recovered into an encode error). -/
def arrLength : Arr → Option Nat
  | .aNil => none
  | .aByte xs => some xs.length
  | .aShort xs => some xs.length
  | .aInt xs => some xs.length
  | .aLong xs => some xs.length
  | .aFloat xs => some xs.length
  | .aDouble xs => some xs.length
  | .aByteArray xs => some xs.length
  | .aString xs => some xs.length
  | .aList xs => some (listsLen xs)
  | .aCompound xs => some (compoundsLen xs)
  | .aIntArray xs => some xs.length
  | .aLongArray xs => some xs.length

/-- `List.Length()` (`types.go`): `0` for an `End`-typed list with a `nil`
array, otherwise the reflected length of the dynamic array. -/
def listLength (l : NbtList) : Option Nat :=
  if l.t = Ty.TypeEnd ∧ l.a = Arr.aNil then some 0 else arrLength l.a

/-- Sequence a list of optional byte chunks, concatenating on success. -/
def seqParts : List (Option (List Nat)) → Option (List Nat)
  | [] => some []
  | p :: rest => do
    let b ← p
    let bs ← seqParts rest
    pure (b ++ bs)

mutual

/-- `Encoder.writeNamedTag`: tag byte, then (unless `End`) the name and the
payload, dispatching on the declared type.  Scalar tags hand the stored
payload to `binary.Write` unchecked; composite tags downcast it, and a
failed downcast is a recovered type-assertion error (`none`). -/
def writeNamedTag (sortC : Bool) : Nat → NamedTag → Option (List Nat)
  | 0, _ => none
  | fuel + 1, tag =>
    let tb := writeType tag.typ
    if tag.typ = Ty.TypeEnd then some tb else
    match writeString tag.name with
    | none => none
    | some nb =>
      let pb : Option (List Nat) :=
        match tag.typ, tag.payload with
        | .TypeByte, v => binWrite v
        | .TypeShort, v => binWrite v
        | .TypeInt, v => binWrite v
        | .TypeLong, v => binWrite v
        | .TypeFloat, v => binWrite v
        | .TypeDouble, v => binWrite v
        | .TypeByteArray, .vByteArray b => writeByteArray b
        | .TypeString, .vString s => writeString s
        | .TypeList, .vList l => writeList sortC fuel l
        | .TypeCompound, .vCompound m => writeCompound sortC fuel m
        | .TypeIntArray, .vIntArray a => writeIntArray a
        | .TypeLongArray, .vLongArray a => writeLongArray a
        | _, _ => none
      pb.map (fun p => tb ++ nb ++ p)

/-- `Encoder.writeList`: element tag byte, `List.Length()` as a 32-bit
length, then the element payloads per the declared element type. -/
def writeList (sortC : Bool) : Nat → NbtList → Option (List Nat)
  | 0, _ => none
  | fuel + 1, l =>
    let tb := writeType l.t
    match listLength l with
    | none => none
    | some len =>
      match writeLength len with
      | none => none
      | some lb =>
        let body : Option (List Nat) :=
          match l.t, l.a with
          | .TypeEnd, _ => some []
          | .TypeByte, a => binWriteArr a
          | .TypeShort, a => binWriteArr a
          | .TypeInt, a => binWriteArr a
          | .TypeLong, a => binWriteArr a
          | .TypeFloat, a => binWriteArr a
          | .TypeDouble, a => binWriteArr a
          | .TypeByteArray, .aByteArray xs => seqParts (xs.map writeByteArray)
          | .TypeString, .aString xs => seqParts (xs.map writeString)
          | .TypeList, .aList xs => writeLists sortC fuel xs
          | .TypeCompound, .aCompound xs => writeCompounds sortC fuel xs
          | .TypeIntArray, .aIntArray xs => seqParts (xs.map writeIntArray)
          | .TypeLongArray, .aLongArray xs => seqParts (xs.map writeLongArray)
          | _, _ => none
        body.map (fun b => tb ++ lb ++ b)

/-- The `for _, a := range l.Array.([]*List)` loop of `writeList`. -/
def writeLists (sortC : Bool) : Nat → Lists → Option (List Nat)
  | 0, _ => none
  | _ + 1, .nil => some []
  | fuel + 1, .cons l rest => do
    let b ← writeList sortC fuel l
    let bs ← writeLists sortC fuel rest
    pure (b ++ bs)

/-- The `for _, a := range l.Array.([]Compound)` loop of `writeList`. -/
def writeCompounds (sortC : Bool) : Nat → Compounds → Option (List Nat)
  | 0, _ => none
  | _ + 1, .nil => some []
  | fuel + 1, .cons m rest => do
    let b ← writeCompound sortC fuel m
    let bs ← writeCompounds sortC fuel rest
    pure (b ++ bs)

/-- `Encoder.writeCompound`: in sorted mode the entries are first put in
ascending lexical name order; each entry is written as a named tag, and a
synthetic `End` tag terminates the compound. -/
def writeCompound (sortC : Bool) : Nat → Entries → Option (List Nat)
  | 0, _ => none
  | fuel + 1, m =>
    if sortC then writeEntries sortC fuel (sortEntries m)
    else writeEntries sortC fuel m

/-- The entry loop of `Encoder.writeCompound`, ending with
`writeNamedTag(&NamedTag{})`. -/
def writeEntries (sortC : Bool) : Nat → Entries → Option (List Nat)
  | 0, _ => none
  | fuel + 1, .nil => writeNamedTag sortC fuel ⟨Ty.TypeEnd, [], Value.vNil⟩
  | fuel + 1, .cons name t v rest => do
    let b ← writeNamedTag sortC fuel ⟨t, name, v⟩
    let bs ← writeEntries sortC fuel rest
    pure (b ++ bs)

end

/-! Fuel budgets for the writers. -/

mutual

def eszV : Value → Nat
  | .vList l => eszL l
  | .vCompound m => 1 + eszE m
  | _ => 0

def eszL : NbtList → Nat
  | .mk _ a => 1 + eszA a

def eszA : Arr → Nat
  | .aList xs => eszLs xs
  | .aCompound xs => eszCs xs
  | _ => 0

def eszLs : Lists → Nat
  | .nil => 1
  | .cons l rest => 1 + eszL l + eszLs rest

def eszCs : Compounds → Nat
  | .nil => 1
  | .cons m rest => 1 + (1 + eszE m) + eszCs rest

def eszE : Entries → Nat
  | .nil => 2
  | .cons _ _ v rest => 1 + (1 + eszV v) + eszE rest

end

def eszNT (tag : NamedTag) : Nat := 1 + eszV tag.payload

/-- `Encoder.Encode` with the `sortCompounds` flag set by
`Encoder.SortCompounds`: encode one named tag as a byte stream. -/
def Encode (sortC : Bool) (tag : NamedTag) : Option (List Nat) :=
  writeNamedTag sortC (eszNT tag) tag

/-! ## Canonical byte image and canonical trees

`rawV`/`rawL`/`rawE` compute, for a well-formed tree, the exact byte
stream the writers emit — defined structurally so the round-trip proof can
induct over it.  `canonV sortC` is the tree the decoder reconstructs from
that stream: identical to the input except that in sorted mode every
compound's entries are in ascending name order. -/

def arrLenT : Arr → Nat
  | .aNil => 0
  | .aByte xs => xs.length
  | .aShort xs => xs.length
  | .aInt xs => xs.length
  | .aLong xs => xs.length
  | .aFloat xs => xs.length
  | .aDouble xs => xs.length
  | .aByteArray xs => xs.length
  | .aString xs => xs.length
  | .aList xs => listsLen xs
  | .aCompound xs => compoundsLen xs
  | .aIntArray xs => xs.length
  | .aLongArray xs => xs.length

mutual

def rawV : Value → List Nat
  | .vNil => []
  | .vByte n => intBytes 1 n
  | .vShort n => intBytes 2 n
  | .vInt n => intBytes 4 n
  | .vLong n => intBytes 8 n
  | .vFloat bits => bytesBE 4 bits
  | .vDouble bits => bytesBE 8 bits
  | .vByteArray bs => intBytes 4 (bs.length : Int) ++ bs
  | .vString s => intBytes 2 (s.length : Int) ++ s
  | .vList l => rawL l
  | .vCompound m => rawE m
  | .vIntArray xs => intBytes 4 (xs.length : Int) ++ (xs.map (intBytes 4)).flatten
  | .vLongArray xs => intBytes 4 (xs.length : Int) ++ (xs.map (intBytes 8)).flatten

def rawL : NbtList → List Nat
  | .mk t a => t.toByte :: (intBytes 4 (arrLenT a : Int) ++ rawA a)

def rawA : Arr → List Nat
  | .aNil => []
  | .aByte xs => (xs.map (intBytes 1)).flatten
  | .aShort xs => (xs.map (intBytes 2)).flatten
  | .aInt xs => (xs.map (intBytes 4)).flatten
  | .aLong xs => (xs.map (intBytes 8)).flatten
  | .aFloat xs => (xs.map (bytesBE 4)).flatten
  | .aDouble xs => (xs.map (bytesBE 8)).flatten
  | .aByteArray xs => (xs.map (fun b => intBytes 4 (b.length : Int) ++ b)).flatten
  | .aString xs => (xs.map (fun s => intBytes 2 (s.length : Int) ++ s)).flatten
  | .aList xs => rawLs xs
  | .aCompound xs => rawCs xs
  | .aIntArray xs =>
    (xs.map (fun a => intBytes 4 (a.length : Int) ++ (a.map (intBytes 4)).flatten)).flatten
  | .aLongArray xs =>
    (xs.map (fun a => intBytes 4 (a.length : Int) ++ (a.map (intBytes 8)).flatten)).flatten

def rawLs : Lists → List Nat
  | .nil => []
  | .cons l rest => rawL l ++ rawLs rest

def rawCs : Compounds → List Nat
  | .nil => []
  | .cons m rest => rawE m ++ rawCs rest

def rawE : Entries → List Nat
  | .nil => [0]
  | .cons name t v rest =>
    t.toByte :: (intBytes 2 (name.length : Int) ++ name ++ rawV v ++ rawE rest)

end

/-- Canonical byte image of a full named tag. -/
def rawNT (tag : NamedTag) : List Nat :=
  tag.typ.toByte ::
    (if tag.typ = Ty.TypeEnd then []
     else intBytes 2 (tag.name.length : Int) ++ tag.name ++ rawV tag.payload)

mutual

def canonV (sortC : Bool) : Value → Value
  | .vList l => .vList (canonL sortC l)
  | .vCompound m =>
    .vCompound (if sortC then sortEntries (canonE sortC m) else canonE sortC m)
  | v => v

def canonL (sortC : Bool) : NbtList → NbtList
  | .mk t a => .mk t (canonA sortC a)

def canonA (sortC : Bool) : Arr → Arr
  | .aList xs => .aList (canonLs sortC xs)
  | .aCompound xs => .aCompound (canonCs sortC xs)
  | a => a

def canonLs (sortC : Bool) : Lists → Lists
  | .nil => .nil
  | .cons l rest => .cons (canonL sortC l) (canonLs sortC rest)

def canonCs (sortC : Bool) : Compounds → Compounds
  | .nil => .nil
  | .cons m rest =>
    .cons (if sortC then sortEntries (canonE sortC m) else canonE sortC m)
      (canonCs sortC rest)

def canonE (sortC : Bool) : Entries → Entries
  | .nil => .nil
  | .cons name t v rest => .cons name t (canonV sortC v) (canonE sortC rest)

end

/-- The tree `Decode` reconstructs from `Encode sortC`'s output. -/
def canonNT (sortC : Bool) (tag : NamedTag) : NamedTag :=
  ⟨tag.typ, tag.name, canonV sortC tag.payload⟩

/-! ## The decoder (`decode.go`: `Decoder`)

Decode errors, `decode.go`'s error taxonomy: short reads surface the
underlying I/O error (`eof`); negative lengths, unknown tag bytes and
duplicate compound keys are format errors.  `fuel` marks exhaustion of the
structural-recursion budget; `Decode` supplies `input length + 1` fuel and
the round-trip proof shows this branch is never taken on encoder output. -/

inductive DErr where
  | eof
  | negativeLength
  | unknownType
  | duplicateName
  | fuel
deriving DecidableEq, Repr

instance {ε α : Type} [DecidableEq ε] [DecidableEq α] : DecidableEq (Except ε α) := fun
  | .ok a, .ok b =>
    if h : a = b then .isTrue (by rw [h]) else .isFalse (by intro hc; cases hc; exact h rfl)
  | .error a, .error b =>
    if h : a = b then .isTrue (by rw [h]) else .isFalse (by intro hc; cases hc; exact h rfl)
  | .ok _, .error _ => .isFalse (by intro hc; cases hc)
  | .error _, .ok _ => .isFalse (by intro hc; cases hc)

/-- Read one big-endian signed integer of `w` bytes (`binary.Read` into an
`int8`/`int16`/`int32`/`int64`). -/
def readIntBE (w : Nat) (bs : List Nat) : Except DErr (Int × List Nat) :=
  match takeN w bs with
  | none => .error .eof
  | some (chunk, rest) => .ok (signedOfNat (8 * w) (natOfBytes chunk), rest)

/-- Read one big-endian unsigned bit pattern of `w` bytes (`binary.Read`
into a `float32`/`float64`, kept as raw IEEE-754 bits). -/
def readBitsBE (w : Nat) (bs : List Nat) : Except DErr (Nat × List Nat) :=
  match takeN w bs with
  | none => .error .eof
  | some (chunk, rest) => .ok (natOfBytes chunk, rest)

/-- `Decoder.readString`: signed 16-bit length (negative is a format
error) followed by that many raw bytes. -/
def readString (bs : List Nat) : Except DErr (List Nat × List Nat) :=
  match readIntBE 2 bs with
  | .error e => .error e
  | .ok (n, rest) =>
    if n < 0 then .error .negativeLength
    else
      match takeN n.toNat rest with
      | none => .error .eof
      | some (s, rest2) => .ok (s, rest2)

/-- `Decoder.readByteArray`: signed 32-bit length (negative is a format
error) followed by that many raw bytes. -/
def readByteArray (bs : List Nat) : Except DErr (List Nat × List Nat) :=
  match readIntBE 4 bs with
  | .error e => .error e
  | .ok (n, rest) =>
    if n < 0 then .error .negativeLength
    else
      match takeN n.toNat rest with
      | none => .error .eof
      | some (b, rest2) => .ok (b, rest2)

/-- Bulk read of `n` signed big-endian integers, `w` bytes each
(`binary.Read` into a slice of `n` fixed-width integers). -/
def readInts (w : Nat) : Nat → List Nat → Except DErr (List Int × List Nat)
  | 0, bs => .ok ([], bs)
  | n + 1, bs =>
    match readIntBE w bs with
    | .error e => .error e
    | .ok (x, rest) =>
      match readInts w n rest with
      | .error e => .error e
      | .ok (xs, rest2) => .ok (x :: xs, rest2)

/-- Bulk read of `n` unsigned big-endian bit patterns, `w` bytes each. -/
def readBits (w : Nat) : Nat → List Nat → Except DErr (List Nat × List Nat)
  | 0, bs => .ok ([], bs)
  | n + 1, bs =>
    match readBitsBE w bs with
    | .error e => .error e
    | .ok (x, rest) =>
      match readBits w n rest with
      | .error e => .error e
      | .ok (xs, rest2) => .ok (x :: xs, rest2)

/-- `Decoder.readIntArray`. -/
def readIntArray (bs : List Nat) : Except DErr (List Int × List Nat) :=
  match readIntBE 4 bs with
  | .error e => .error e
  | .ok (n, rest) =>
    if n < 0 then .error .negativeLength
    else readInts 4 n.toNat rest

/-- `Decoder.readLongArray`. -/
def readLongArray (bs : List Nat) : Except DErr (List Int × List Nat) :=
  match readIntBE 4 bs with
  | .error e => .error e
  | .ok (n, rest) =>
    if n < 0 then .error .negativeLength
    else readInts 8 n.toNat rest

/-- The per-element loop of `readList` for `ByteArray` elements. -/
def readByteArrays : Nat → List Nat → Except DErr (List (List Nat) × List Nat)
  | 0, bs => .ok ([], bs)
  | n + 1, bs =>
    match readByteArray bs with
    | .error e => .error e
    | .ok (b, rest) =>
      match readByteArrays n rest with
      | .error e => .error e
      | .ok (xs, rest2) => .ok (b :: xs, rest2)

/-- The per-element loop of `readList` for `String` elements. -/
def readStrings : Nat → List Nat → Except DErr (List (List Nat) × List Nat)
  | 0, bs => .ok ([], bs)
  | n + 1, bs =>
    match readString bs with
    | .error e => .error e
    | .ok (s, rest) =>
      match readStrings n rest with
      | .error e => .error e
      | .ok (xs, rest2) => .ok (s :: xs, rest2)

/-- The per-element loop of `readList` for `IntArray` elements. -/
def readIntArrays : Nat → List Nat → Except DErr (List (List Int) × List Nat)
  | 0, bs => .ok ([], bs)
  | n + 1, bs =>
    match readIntArray bs with
    | .error e => .error e
    | .ok (a, rest) =>
      match readIntArrays n rest with
      | .error e => .error e
      | .ok (xs, rest2) => .ok (a :: xs, rest2)

/-- The per-element loop of `readList` for `LongArray` elements. -/
def readLongArrays : Nat → List Nat → Except DErr (List (List Int) × List Nat)
  | 0, bs => .ok ([], bs)
  | n + 1, bs =>
    match readLongArray bs with
    | .error e => .error e
    | .ok (a, rest) =>
      match readLongArrays n rest with
      | .error e => .error e
      | .ok (xs, rest2) => .ok (a :: xs, rest2)

mutual

/-- `Decoder.readNamedTag`: one tag byte; `End` returns the zero tag at
once; otherwise the length-prefixed name, then the payload by tag
dispatch, with unknown tag bytes rejected. -/
def readNamedTag : Nat → List Nat → Except DErr (NamedTag × List Nat)
  | 0, _ => .error .fuel
  | fuel + 1, bs =>
    match bs with
    | [] => .error .eof
    | tb :: rest =>
      if tb = 0 then .ok (⟨Ty.TypeEnd, [], Value.vNil⟩, rest)
      else
        match readString rest with
        | .error e => .error e
        | .ok (name, r1) =>
          match tb with
          | 1 => (readIntBE 1 r1).map fun p => (⟨.TypeByte, name, .vByte p.1⟩, p.2)
          | 2 => (readIntBE 2 r1).map fun p => (⟨.TypeShort, name, .vShort p.1⟩, p.2)
          | 3 => (readIntBE 4 r1).map fun p => (⟨.TypeInt, name, .vInt p.1⟩, p.2)
          | 4 => (readIntBE 8 r1).map fun p => (⟨.TypeLong, name, .vLong p.1⟩, p.2)
          | 5 => (readBitsBE 4 r1).map fun p => (⟨.TypeFloat, name, .vFloat p.1⟩, p.2)
          | 6 => (readBitsBE 8 r1).map fun p => (⟨.TypeDouble, name, .vDouble p.1⟩, p.2)
          | 7 => (readByteArray r1).map fun p => (⟨.TypeByteArray, name, .vByteArray p.1⟩, p.2)
          | 8 => (readString r1).map fun p => (⟨.TypeString, name, .vString p.1⟩, p.2)
          | 9 => (readList fuel r1).map fun p => (⟨.TypeList, name, .vList p.1⟩, p.2)
          | 10 => (readCompound fuel .nil r1).map fun p => (⟨.TypeCompound, name, .vCompound p.1⟩, p.2)
          | 11 => (readIntArray r1).map fun p => (⟨.TypeIntArray, name, .vIntArray p.1⟩, p.2)
          | 12 => (readLongArray r1).map fun p => (⟨.TypeLongArray, name, .vLongArray p.1⟩, p.2)
          | _ => .error .unknownType

/-- `Decoder.readList`: element tag byte, signed 32-bit count (negative is
a format error, checked before the element dispatch), then `count`
elements of the declared type.  Note the `TypeEnd` arm accepts any
(non-negative) declared count and leaves the array `nil`. -/
def readList : Nat → List Nat → Except DErr (NbtList × List Nat)
  | 0, _ => .error .fuel
  | fuel + 1, bs =>
    match bs with
    | [] => .error .eof
    | tb :: r0 =>
      match readIntBE 4 r0 with
      | .error e => .error e
      | .ok (n, r1) =>
        if n < 0 then .error .negativeLength
        else
          match tb with
          | 0 => .ok (⟨Ty.TypeEnd, Arr.aNil⟩, r1)
          | 1 => (readInts 1 n.toNat r1).map fun p => (⟨.TypeByte, .aByte p.1⟩, p.2)
          | 2 => (readInts 2 n.toNat r1).map fun p => (⟨.TypeShort, .aShort p.1⟩, p.2)
          | 3 => (readInts 4 n.toNat r1).map fun p => (⟨.TypeInt, .aInt p.1⟩, p.2)
          | 4 => (readInts 8 n.toNat r1).map fun p => (⟨.TypeLong, .aLong p.1⟩, p.2)
          | 5 => (readBits 4 n.toNat r1).map fun p => (⟨.TypeFloat, .aFloat p.1⟩, p.2)
          | 6 => (readBits 8 n.toNat r1).map fun p => (⟨.TypeDouble, .aDouble p.1⟩, p.2)
          | 7 => (readByteArrays n.toNat r1).map fun p => (⟨.TypeByteArray, .aByteArray p.1⟩, p.2)
          | 8 => (readStrings n.toNat r1).map fun p => (⟨.TypeString, .aString p.1⟩, p.2)
          | 9 => (readLists fuel n.toNat r1).map fun p => (⟨.TypeList, .aList p.1⟩, p.2)
          | 10 => (readComps fuel n.toNat r1).map fun p => (⟨.TypeCompound, .aCompound p.1⟩, p.2)
          | 11 => (readIntArrays n.toNat r1).map fun p => (⟨.TypeIntArray, .aIntArray p.1⟩, p.2)
          | 12 => (readLongArrays n.toNat r1).map fun p => (⟨.TypeLongArray, .aLongArray p.1⟩, p.2)
          | _ => .error .unknownType

/-- The per-element loop of `readList` for `List` elements. -/
def readLists : Nat → Nat → List Nat → Except DErr (Lists × List Nat)
  | _, 0, bs => .ok (.nil, bs)
  | 0, _ + 1, _ => .error .fuel
  | fuel + 1, n + 1, bs =>
    match readList fuel bs with
    | .error e => .error e
    | .ok (l, rest) =>
      match readLists fuel n rest with
      | .error e => .error e
      | .ok (xs, rest2) => .ok (.cons l xs, rest2)

/-- The per-element loop of `readList` for `Compound` elements. -/
def readComps : Nat → Nat → List Nat → Except DErr (Compounds × List Nat)
  | _, 0, bs => .ok (.nil, bs)
  | 0, _ + 1, _ => .error .fuel
  | fuel + 1, n + 1, bs =>
    match readCompound fuel .nil bs with
    | .error e => .error e
    | .ok (m, rest) =>
      match readComps fuel n rest with
      | .error e => .error e
      | .ok (xs, rest2) => .ok (.cons m xs, rest2)

/-- `Decoder.readCompound`: read named tags until an `End` tag terminates
the compound, rejecting duplicate names.  `acc` holds the entries decoded
so far, in stream order. -/
def readCompound : Nat → Entries → List Nat → Except DErr (Entries × List Nat)
  | 0, _, _ => .error .fuel
  | fuel + 1, acc, bs =>
    match readNamedTag fuel bs with
    | .error e => .error e
    | .ok (tag, rest) =>
      if tag.typ = Ty.TypeEnd then .ok (acc, rest)
      else if containsName acc tag.name then .error .duplicateName
      else readCompound fuel (entAppend acc (.cons tag.name tag.typ tag.payload .nil)) rest

end

/-- `Decoder.Decode`: decode one named tag from the stream (the model also
returns the unconsumed suffix; the Go decoder leaves it on the reader). -/
def Decode (bs : List Nat) : Except DErr (NamedTag × List Nat) :=
  readNamedTag (bs.length + 1) bs

/-! Fuel budgets for the readers. -/

mutual

def dszV : Value → Nat
  | .vList l => dszL l
  | .vCompound m => dszC m
  | _ => 0

def dszL : NbtList → Nat
  | .mk _ a => 1 + dszA a

def dszA : Arr → Nat
  | .aList xs => dszLs xs
  | .aCompound xs => dszCs xs
  | _ => 0

def dszLs : Lists → Nat
  | .nil => 0
  | .cons l rest => 1 + max (dszL l) (dszLs rest)

def dszCs : Compounds → Nat
  | .nil => 0
  | .cons m rest => 1 + max (dszC m) (dszCs rest)

def dszC : Entries → Nat
  | .nil => 2
  | .cons _ _ v rest => 1 + max (1 + dszV v) (dszC rest)

end

def dszNT (tag : NamedTag) : Nat := 1 + dszV tag.payload

/-! ## Data-model invariants

`wfNT` is the spec's data-model invariant: every payload matches its
declared tag (homogeneous lists included), compound keys are unique,
16-bit length fields stay within 32767 and 32-bit ones within `2^31 - 1`,
every scalar fits its width, and names/strings are true byte sequences. -/

def strOk (s : List Nat) : Bool := s.all (· < 256)

def nameOk (s : List Nat) : Bool := decide (s.length ≤ maxShort) && strOk s

def i8Ok (n : Int) : Bool := decide (-128 ≤ n) && decide (n < 128)

def i16Ok (n : Int) : Bool := decide (-32768 ≤ n) && decide (n < 32768)

def i32Ok (n : Int) : Bool := decide (-2147483648 ≤ n) && decide (n < 2147483648)

def i64Ok (n : Int) : Bool :=
  decide (-9223372036854775808 ≤ n) && decide (n < 9223372036854775808)

def f32Ok (bits : Nat) : Bool := decide (bits < 4294967296)

def f64Ok (bits : Nat) : Bool := decide (bits < 18446744073709551616)

def lenOk (n : Nat) : Bool := decide (n ≤ maxInt32)

def bArrOk (b : List Nat) : Bool := lenOk b.length && strOk b

def sPayloadOk (s : List Nat) : Bool := decide (s.length ≤ maxShort) && strOk s

def iArrOk (a : List Int) : Bool := lenOk a.length && a.all i32Ok

def lArrOk (a : List Int) : Bool := lenOk a.length && a.all i64Ok

/-- No name of `m` is repeated. -/
def nodupNames : Entries → Bool
  | .nil => true
  | .cons name _ _ rest => !containsName rest name && nodupNames rest

mutual

def wfPayload : Ty → Value → Bool
  | .TypeEnd, .vNil => true
  | .TypeByte, .vByte n => i8Ok n
  | .TypeShort, .vShort n => i16Ok n
  | .TypeInt, .vInt n => i32Ok n
  | .TypeLong, .vLong n => i64Ok n
  | .TypeFloat, .vFloat bits => f32Ok bits
  | .TypeDouble, .vDouble bits => f64Ok bits
  | .TypeByteArray, .vByteArray bs => bArrOk bs
  | .TypeString, .vString s => sPayloadOk s
  | .TypeList, .vList l => wfList l
  | .TypeCompound, .vCompound m => wfEntries m && nodupNames m
  | .TypeIntArray, .vIntArray xs => iArrOk xs
  | .TypeLongArray, .vLongArray xs => lArrOk xs
  | _, _ => false

def wfList : NbtList → Bool
  | .mk .TypeEnd .aNil => true
  | .mk .TypeByte (.aByte xs) => lenOk xs.length && xs.all i8Ok
  | .mk .TypeShort (.aShort xs) => lenOk xs.length && xs.all i16Ok
  | .mk .TypeInt (.aInt xs) => lenOk xs.length && xs.all i32Ok
  | .mk .TypeLong (.aLong xs) => lenOk xs.length && xs.all i64Ok
  | .mk .TypeFloat (.aFloat xs) => lenOk xs.length && xs.all f32Ok
  | .mk .TypeDouble (.aDouble xs) => lenOk xs.length && xs.all f64Ok
  | .mk .TypeByteArray (.aByteArray xs) => lenOk xs.length && xs.all bArrOk
  | .mk .TypeString (.aString xs) => lenOk xs.length && xs.all sPayloadOk
  | .mk .TypeList (.aList xs) => lenOk (listsLen xs) && wfLists xs
  | .mk .TypeCompound (.aCompound xs) => lenOk (compoundsLen xs) && wfCompounds xs
  | .mk .TypeIntArray (.aIntArray xs) => lenOk xs.length && xs.all iArrOk
  | .mk .TypeLongArray (.aLongArray xs) => lenOk xs.length && xs.all lArrOk
  | _ => false

def wfLists : Lists → Bool
  | .nil => true
  | .cons l rest => wfList l && wfLists rest

def wfCompounds : Compounds → Bool
  | .nil => true
  | .cons m rest => wfEntries m && nodupNames m && wfCompounds rest

def wfEntries : Entries → Bool
  | .nil => true
  | .cons name t v rest =>
    !(t == Ty.TypeEnd) && nameOk name && wfPayload t v && wfEntries rest

end

/-- Data-model invariant for a full named tag. -/
def wfNT (tag : NamedTag) : Bool :=
  (if tag.typ = Ty.TypeEnd then tag.name == ([] : List Nat) else nameOk tag.name)
    && wfPayload tag.typ tag.payload

/-! ## Facts about entry sorting -/

theorem sortEntries_toList (m : Entries) :
    entriesToList (sortEntries m) = List.insertionSort entryLe (entriesToList m) := by
  rw [sortEntries, entriesToList_ofList]

theorem sortEntries_perm (m : Entries) :
    (entriesToList (sortEntries m)).Perm (entriesToList m) := by
  rw [sortEntries_toList]
  exact List.perm_insertionSort entryLe (entriesToList m)

/-- Per-entry well-formedness as a predicate on tuples. -/
def entryWf (e : Entry) : Bool :=
  !(e.2.1 == Ty.TypeEnd) && nameOk e.1 && wfPayload e.2.1 e.2.2

theorem wfEntries_eq_all (m : Entries) :
    wfEntries m = (entriesToList m).all entryWf := by
  match m with
  | .nil => rfl
  | .cons name t v rest =>
    simp [wfEntries, entriesToList, List.all_cons, entryWf, wfEntries_eq_all rest]

theorem containsName_iff (m : Entries) (s : List Nat) :
    containsName m s = true ↔ s ∈ entryNames m := by
  match m with
  | .nil => simp [containsName, entryNames]
  | .cons name t v rest =>
    rw [containsName, entryNames]
    rw [Bool.or_eq_true, decide_eq_true_eq, List.mem_cons, containsName_iff rest]
    constructor
    · rintro (h | h)
      · exact Or.inl h.symm
      · exact Or.inr h
    · rintro (h | h)
      · exact Or.inl h.symm
      · exact Or.inr h

theorem nodupNames_iff (m : Entries) :
    nodupNames m = true ↔ (entryNames m).Nodup := by
  match m with
  | .nil => simp [nodupNames, entryNames]
  | .cons name t v rest =>
    rw [entryNames, List.nodup_cons, ← nodupNames_iff rest, ← containsName_iff]
    simp [nodupNames]

theorem entryNames_eq_map (m : Entries) :
    entryNames m = (entriesToList m).map (·.1) := by
  match m with
  | .nil => rfl
  | .cons name t v rest => simp [entryNames, entriesToList, entryNames_eq_map rest]

theorem eszE_eq_sum (m : Entries) :
    eszE m = 2 + ((entriesToList m).map (fun e => 2 + eszV e.2.2)).sum := by
  match m with
  | .nil => rfl
  | .cons name t v rest =>
    simp [eszE, entriesToList, eszE_eq_sum rest]
    omega

theorem eszE_sortEntries (m : Entries) : eszE (sortEntries m) = eszE m := by
  rw [eszE_eq_sum, eszE_eq_sum]
  have hperm := sortEntries_perm m
  rw [(hperm.map (fun e => 2 + eszV e.2.2)).sum_eq]

theorem wfEntries_sortEntries {m : Entries} (h : wfEntries m = true) :
    wfEntries (sortEntries m) = true := by
  rw [wfEntries_eq_all] at h ⊢
  rw [List.all_eq_true] at h ⊢
  intro e he
  exact h e ((sortEntries_perm m).mem_iff.mp he)

theorem nodupNames_sortEntries {m : Entries} (h : nodupNames m = true) :
    nodupNames (sortEntries m) = true := by
  rw [nodupNames_iff] at h ⊢
  rw [entryNames_eq_map] at h ⊢
  exact (((sortEntries_perm m).map (·.1)).nodup_iff).mpr h

/-- `insertionSort` by name commutes with any entry map preserving names. -/
theorem insertionSort_map_of_name {f : Entry → Entry}
    (hf : ∀ e, (f e).1 = e.1) (l : List Entry) :
    List.insertionSort entryLe (l.map f) = (List.insertionSort entryLe l).map f := by
  have hIns : ∀ (a : Entry) (l' : List Entry),
      List.orderedInsert entryLe (f a) (l'.map f)
        = (List.orderedInsert entryLe a l').map f := by
    intro a l'
    induction l' with
    | nil => rfl
    | cons b rest ih =>
      by_cases h : entryLe a b
      · have h' : entryLe (f a) (f b) := by
          unfold entryLe at h ⊢
          rw [hf a, hf b]
          exact h
        simp [List.orderedInsert, h, h']
      · have h' : ¬ entryLe (f a) (f b) := by
          unfold entryLe at h ⊢
          rw [hf a, hf b]
          exact h
        simp [List.orderedInsert, h, h', ih]
  induction l with
  | nil => rfl
  | cons a rest ih => simp [List.insertionSort, ih, hIns]

theorem canonE_entriesOfList (sortC : Bool) (l : List Entry) :
    canonE sortC (entriesOfList l)
      = entriesOfList (l.map (fun e => (e.1, e.2.1, canonV sortC e.2.2))) := by
  induction l with
  | nil => rfl
  | cons e rest ih =>
    obtain ⟨name, t, v⟩ := e
    simp [entriesOfList, canonE, ih]

theorem canonE_toList (sortC : Bool) (m : Entries) :
    entriesToList (canonE sortC m)
      = (entriesToList m).map (fun e => (e.1, e.2.1, canonV sortC e.2.2)) := by
  match m with
  | .nil => rfl
  | .cons name t v rest => simp [canonE, entriesToList, canonE_toList sortC rest]

/-- Canonicalising payloads commutes with sorting entries by name. -/
theorem canonE_sortEntries (sortC : Bool) (m : Entries) :
    canonE sortC (sortEntries m) = sortEntries (canonE sortC m) := by
  rw [sortEntries, canonE_entriesOfList, sortEntries]
  congr 1
  rw [canonE_toList]
  exact (insertionSort_map_of_name
    (f := fun e => (e.1, e.2.1, canonV sortC e.2.2)) (fun e => rfl)
    (entriesToList m)).symm

/-! ## Encoder correctness: on well-formed input the writers succeed and
emit the canonical byte image of the canonicalised tree -/

theorem writeString_ok {s : List Nat} (h : s.length ≤ maxShort) :
    writeString s = some (intBytes 2 (s.length : Int) ++ s) := by
  rw [writeString, if_neg (by omega)]

theorem writeLength_ok {n : Nat} (h : n ≤ maxInt32) :
    writeLength n = some (intBytes 4 (n : Int)) := by
  rw [writeLength, if_neg (by omega)]

theorem writeByteArray_ok {b : List Nat} (h : b.length ≤ maxInt32) :
    writeByteArray b = some (intBytes 4 (b.length : Int) ++ b) := by
  rw [writeByteArray, writeLength_ok h]
  rfl

theorem writeIntArray_ok {a : List Int} (h : a.length ≤ maxInt32) :
    writeIntArray a
      = some (intBytes 4 (a.length : Int) ++ (a.map (intBytes 4)).flatten) := by
  rw [writeIntArray, writeLength_ok h]
  rfl

theorem writeLongArray_ok {a : List Int} (h : a.length ≤ maxInt32) :
    writeLongArray a
      = some (intBytes 4 (a.length : Int) ++ (a.map (intBytes 8)).flatten) := by
  rw [writeLongArray, writeLength_ok h]
  rfl

theorem seqParts_map {α : Type} {f : α → Option (List Nat)} {g : α → List Nat}
    (xs : List α) (h : ∀ x ∈ xs, f x = some (g x)) :
    seqParts (xs.map f) = some ((xs.map g).flatten) := by
  induction xs with
  | nil => rfl
  | cons x rest ih =>
    have hx := h x (by simp)
    have hrest := ih (fun y hy => h y (by simp [hy]))
    simp [seqParts, hx, hrest]

theorem writeNamedTag_end (sortC : Bool) {fuel : Nat} (h : 1 ≤ fuel) :
    writeNamedTag sortC fuel ⟨Ty.TypeEnd, [], Value.vNil⟩ = some [0] := by
  match fuel, h with
  | f + 1, _ => rfl

theorem rawE_cons_eq (name : List Nat) (t : Ty) (v : Value) (rest : Entries)
    (h : t ≠ Ty.TypeEnd) :
    rawE (.cons name t v rest) = rawNT ⟨t, name, v⟩ ++ rawE rest := by
  simp [rawE, rawNT, h]

/-- The entry-level encoder fact that the compound writers thread around:
the entry is well formed and `writeNamedTag` on it emits the canonical
bytes of its canonicalised form. -/
def EntryFact (sortC : Bool) (e : Entry) : Prop :=
  entryWf e = true ∧
    ∀ f, 1 + eszV e.2.2 ≤ f →
      writeNamedTag sortC f ⟨e.2.1, e.1, e.2.2⟩
        = some (rawNT (canonNT sortC ⟨e.2.1, e.1, e.2.2⟩))

theorem writeEntries_of_pointwise (sortC : Bool) (m : Entries)
    (hp : ∀ e ∈ entriesToList m, EntryFact sortC e) :
    ∀ fuel, eszE m ≤ fuel →
      writeEntries sortC fuel m = some (rawE (canonE sortC m)) := by
  match m with
  | .nil =>
    intro fuel hfuel
    have h2 : 2 ≤ fuel := by simpa [eszE] using hfuel
    obtain ⟨f, rfl⟩ : ∃ f, fuel = f + 1 := ⟨fuel - 1, by omega⟩
    rw [writeEntries, writeNamedTag_end sortC (by omega)]
    rfl
  | .cons name t v rest =>
    intro fuel hfuel
    have hsz : 1 + (1 + eszV v) + eszE rest ≤ fuel := by
      simpa [eszE] using hfuel
    obtain ⟨f, rfl⟩ : ∃ f, fuel = f + 1 := ⟨fuel - 1, by omega⟩
    obtain ⟨hwf, hfact⟩ := hp (name, t, v) (by simp [entriesToList])
    have htne : t ≠ Ty.TypeEnd := by
      rcases Bool.and_eq_true .. |>.mp hwf with ⟨h1, _⟩
      rcases Bool.and_eq_true .. |>.mp h1 with ⟨h2, _⟩
      simpa using h2
    have hhead := hfact f (by
      show 1 + eszV v ≤ f
      omega)
    have htail := writeEntries_of_pointwise sortC rest
      (fun e he => hp e (by simp [entriesToList, he])) f (by omega)
    rw [writeEntries, hhead, htail]
    simp [canonE, rawE_cons_eq name t (canonV sortC v) (canonE sortC rest) htne,
      canonNT]

theorem writeCompound_of_pointwise (sortC : Bool) (m : Entries)
    (hp : ∀ e ∈ entriesToList m, EntryFact sortC e) :
    ∀ fuel, 1 + eszE m ≤ fuel →
      writeCompound sortC fuel m
        = some (rawE (if sortC then sortEntries (canonE sortC m)
                      else canonE sortC m)) := by
  intro fuel hfuel
  obtain ⟨f, rfl⟩ : ∃ f, fuel = f + 1 := ⟨fuel - 1, by omega⟩
  rw [writeCompound]
  cases sortC with
  | false =>
    show writeEntries false f m = some (rawE (canonE false m))
    exact writeEntries_of_pointwise false m hp f (by omega)
  | true =>
    have hp' : ∀ e ∈ entriesToList (sortEntries m), EntryFact true e :=
      fun e he => hp e ((sortEntries_perm m).mem_iff.mp he)
    show writeEntries true f (sortEntries m)
      = some (rawE (sortEntries (canonE true m)))
    rw [writeEntries_of_pointwise true (sortEntries m) hp' f
      (by rw [eszE_sortEntries]; omega), canonE_sortEntries]

theorem listsLen_canonLs (sortC : Bool) (xs : Lists) :
    listsLen (canonLs sortC xs) = listsLen xs := by
  match xs with
  | .nil => rfl
  | .cons l rest => simp [canonLs, listsLen, listsLen_canonLs sortC rest]

theorem compoundsLen_canonCs (sortC : Bool) (xs : Compounds) :
    compoundsLen (canonCs sortC xs) = compoundsLen xs := by
  match xs with
  | .nil => rfl
  | .cons m rest => simp [canonCs, compoundsLen, compoundsLen_canonCs sortC rest]

mutual

theorem encV_ok (v : Value) : ∀ (sortC : Bool) (t : Ty) (name : List Nat),
    wfPayload t v = true → t ≠ Ty.TypeEnd → nameOk name = true →
    ∀ fuel, 1 + eszV v ≤ fuel →
      writeNamedTag sortC fuel ⟨t, name, v⟩
        = some (rawNT (canonNT sortC ⟨t, name, v⟩)) := by
  intro sortC t name hwf htne hname fuel hfuel
  obtain ⟨f, rfl⟩ : ∃ f, fuel = f + 1 := ⟨fuel - 1, by omega⟩
  have hnlen : name.length ≤ maxShort := by
    rcases Bool.and_eq_true .. |>.mp hname with ⟨h1, _⟩
    simpa using h1
  cases t with
  | TypeEnd => exact absurd rfl htne
  | TypeByte =>
    cases v <;> simp [wfPayload] at hwf
    rename_i n
    simp [writeNamedTag, writeString_ok hnlen, binWrite, rawNT, canonNT, canonV,
      rawV, writeType, Ty.toByte]
  | TypeShort =>
    cases v <;> simp [wfPayload] at hwf
    rename_i n
    simp [writeNamedTag, writeString_ok hnlen, binWrite, rawNT, canonNT, canonV,
      rawV, writeType, Ty.toByte]
  | TypeInt =>
    cases v <;> simp [wfPayload] at hwf
    rename_i n
    simp [writeNamedTag, writeString_ok hnlen, binWrite, rawNT, canonNT, canonV,
      rawV, writeType, Ty.toByte]
  | TypeLong =>
    cases v <;> simp [wfPayload] at hwf
    rename_i n
    simp [writeNamedTag, writeString_ok hnlen, binWrite, rawNT, canonNT, canonV,
      rawV, writeType, Ty.toByte]
  | TypeFloat =>
    cases v <;> simp [wfPayload] at hwf
    rename_i bits
    simp [writeNamedTag, writeString_ok hnlen, binWrite, rawNT, canonNT, canonV,
      rawV, writeType, Ty.toByte]
  | TypeDouble =>
    cases v <;> simp [wfPayload] at hwf
    rename_i bits
    simp [writeNamedTag, writeString_ok hnlen, binWrite, rawNT, canonNT, canonV,
      rawV, writeType, Ty.toByte]
  | TypeByteArray =>
    cases v <;> simp [wfPayload] at hwf
    rename_i bs
    have hlen : bs.length ≤ maxInt32 := by
      rcases Bool.and_eq_true .. |>.mp hwf with ⟨h1, _⟩
      simpa [lenOk] using h1
    simp [writeNamedTag, writeString_ok hnlen, writeByteArray_ok hlen, rawNT,
      canonNT, canonV, rawV, writeType, Ty.toByte]
  | TypeString =>
    cases v <;> simp [wfPayload] at hwf
    rename_i s
    have hlen : s.length ≤ maxShort := by
      rcases Bool.and_eq_true .. |>.mp hwf with ⟨h1, _⟩
      simpa using h1
    simp [writeNamedTag, writeString_ok hnlen, writeString_ok hlen, rawNT,
      canonNT, canonV, rawV, writeType, Ty.toByte]
  | TypeList =>
    cases v <;> simp [wfPayload] at hwf
    rename_i l
    have hszl : eszL l ≤ f := by
      simp [eszV] at hfuel
      omega
    have hl := encL_ok l sortC hwf f hszl
    simp [writeNamedTag, writeString_ok hnlen, hl, rawNT, canonNT, canonV,
      rawV, writeType, Ty.toByte]
  | TypeCompound =>
    cases v <;> simp [wfPayload] at hwf
    rename_i m
    obtain ⟨hwfE, hnd⟩ := hwf
    have hszm : 1 + eszE m ≤ f := by
      simp [eszV] at hfuel
      omega
    have hc := writeCompound_of_pointwise sortC m
      (encE_pointwise m sortC hwfE) f hszm
    simp [writeNamedTag, writeString_ok hnlen, hc, rawNT, canonNT, canonV,
      rawV, writeType, Ty.toByte]
  | TypeIntArray =>
    cases v <;> simp [wfPayload] at hwf
    rename_i xs
    have hlen : xs.length ≤ maxInt32 := by
      rcases Bool.and_eq_true .. |>.mp hwf with ⟨h1, _⟩
      simpa [lenOk] using h1
    simp [writeNamedTag, writeString_ok hnlen, writeIntArray_ok hlen, rawNT,
      canonNT, canonV, rawV, writeType, Ty.toByte]
  | TypeLongArray =>
    cases v <;> simp [wfPayload] at hwf
    rename_i xs
    have hlen : xs.length ≤ maxInt32 := by
      rcases Bool.and_eq_true .. |>.mp hwf with ⟨h1, _⟩
      simpa [lenOk] using h1
    simp [writeNamedTag, writeString_ok hnlen, writeLongArray_ok hlen, rawNT,
      canonNT, canonV, rawV, writeType, Ty.toByte]

theorem encL_ok (l : NbtList) : ∀ (sortC : Bool), wfList l = true →
    ∀ fuel, eszL l ≤ fuel →
      writeList sortC fuel l = some (rawL (canonL sortC l)) := by
  match l with
  | .mk t a =>
    intro sortC hwf fuel hfuel
    have h1 : 1 ≤ fuel := by
      simp [eszL] at hfuel
      omega
    obtain ⟨f, rfl⟩ : ∃ f, fuel = f + 1 := ⟨fuel - 1, by omega⟩
    cases t <;> cases a <;> simp [wfList] at hwf
    · -- End / aNil
      simp [writeList, listLength, NbtList.t, NbtList.a, arrLength, writeLength,
        maxInt32, binWriteArr, rawL, canonL, canonA, rawA, arrLenT, writeType,
        Ty.toByte]
    · -- Byte / aByte
      rename_i xs
      have hlen : xs.length ≤ maxInt32 := by simpa [lenOk] using hwf.1
      simp [writeList, listLength, NbtList.t, NbtList.a, arrLength,
        writeLength_ok hlen, binWriteArr, rawL, canonL, canonA, rawA, arrLenT,
        writeType, Ty.toByte]
    · -- Short / aShort
      rename_i xs
      have hlen : xs.length ≤ maxInt32 := by simpa [lenOk] using hwf.1
      simp [writeList, listLength, NbtList.t, NbtList.a, arrLength,
        writeLength_ok hlen, binWriteArr, rawL, canonL, canonA, rawA, arrLenT,
        writeType, Ty.toByte]
    · -- Int / aInt
      rename_i xs
      have hlen : xs.length ≤ maxInt32 := by simpa [lenOk] using hwf.1
      simp [writeList, listLength, NbtList.t, NbtList.a, arrLength,
        writeLength_ok hlen, binWriteArr, rawL, canonL, canonA, rawA, arrLenT,
        writeType, Ty.toByte]
    · -- Long / aLong
      rename_i xs
      have hlen : xs.length ≤ maxInt32 := by simpa [lenOk] using hwf.1
      simp [writeList, listLength, NbtList.t, NbtList.a, arrLength,
        writeLength_ok hlen, binWriteArr, rawL, canonL, canonA, rawA, arrLenT,
        writeType, Ty.toByte]
    · -- Float / aFloat
      rename_i xs
      have hlen : xs.length ≤ maxInt32 := by simpa [lenOk] using hwf.1
      simp [writeList, listLength, NbtList.t, NbtList.a, arrLength,
        writeLength_ok hlen, binWriteArr, rawL, canonL, canonA, rawA, arrLenT,
        writeType, Ty.toByte]
    · -- Double / aDouble
      rename_i xs
      have hlen : xs.length ≤ maxInt32 := by simpa [lenOk] using hwf.1
      simp [writeList, listLength, NbtList.t, NbtList.a, arrLength,
        writeLength_ok hlen, binWriteArr, rawL, canonL, canonA, rawA, arrLenT,
        writeType, Ty.toByte]
    · -- ByteArray / aByteArray
      rename_i xs
      obtain ⟨hlen', hall⟩ := hwf
      have hlen : xs.length ≤ maxInt32 := by simpa [lenOk] using hlen'
      have hparts := seqParts_map xs (fun b hb => writeByteArray_ok (by
        have hb' := hall b hb
        simp [bArrOk, lenOk] at hb'
        exact hb'.1))
      simp [writeList, listLength, NbtList.t, NbtList.a, arrLength,
        writeLength_ok hlen, hparts, rawL, canonL, canonA, rawA, arrLenT,
        writeType, Ty.toByte]
    · -- String / aString
      rename_i xs
      obtain ⟨hlen', hall⟩ := hwf
      have hlen : xs.length ≤ maxInt32 := by simpa [lenOk] using hlen'
      have hparts := seqParts_map xs (fun b hb => writeString_ok (by
        have hb' := hall b hb
        simp [sPayloadOk] at hb'
        exact hb'.1))
      simp [writeList, listLength, NbtList.t, NbtList.a, arrLength,
        writeLength_ok hlen, hparts, rawL, canonL, canonA, rawA, arrLenT,
        writeType, Ty.toByte]
    · -- List / aList
      rename_i xs
      obtain ⟨hlen', hwfLs⟩ := hwf
      have hlen : listsLen xs ≤ maxInt32 := by simpa [lenOk] using hlen'
      have hszls : eszLs xs ≤ f := by
        simp [eszL, eszA] at hfuel
        omega
      have hls := encLs_ok xs sortC hwfLs f hszls
      simp [writeList, listLength, NbtList.t, NbtList.a, arrLength,
        writeLength_ok hlen, hls, rawL, canonL, canonA, rawA, arrLenT,
        listsLen_canonLs, writeType, Ty.toByte]
    · -- Compound / aCompound
      rename_i xs
      obtain ⟨hlen', hwfCs⟩ := hwf
      have hlen : compoundsLen xs ≤ maxInt32 := by simpa [lenOk] using hlen'
      have hszcs : eszCs xs ≤ f := by
        simp [eszL, eszA] at hfuel
        omega
      have hcs := encCs_ok xs sortC hwfCs f hszcs
      simp [writeList, listLength, NbtList.t, NbtList.a, arrLength,
        writeLength_ok hlen, hcs, rawL, canonL, canonA, rawA, arrLenT,
        compoundsLen_canonCs, writeType, Ty.toByte]
    · -- IntArray / aIntArray
      rename_i xs
      obtain ⟨hlen', hall⟩ := hwf
      have hlen : xs.length ≤ maxInt32 := by simpa [lenOk] using hlen'
      have hparts := seqParts_map xs (fun b hb => writeIntArray_ok (by
        have hb' := hall b hb
        simp [iArrOk, lenOk] at hb'
        exact hb'.1))
      simp [writeList, listLength, NbtList.t, NbtList.a, arrLength,
        writeLength_ok hlen, hparts, rawL, canonL, canonA, rawA, arrLenT,
        writeType, Ty.toByte]
    · -- LongArray / aLongArray
      rename_i xs
      obtain ⟨hlen', hall⟩ := hwf
      have hlen : xs.length ≤ maxInt32 := by simpa [lenOk] using hlen'
      have hparts := seqParts_map xs (fun b hb => writeLongArray_ok (by
        have hb' := hall b hb
        simp [lArrOk, lenOk] at hb'
        exact hb'.1))
      simp [writeList, listLength, NbtList.t, NbtList.a, arrLength,
        writeLength_ok hlen, hparts, rawL, canonL, canonA, rawA, arrLenT,
        writeType, Ty.toByte]

theorem encLs_ok (xs : Lists) : ∀ (sortC : Bool), wfLists xs = true →
    ∀ fuel, eszLs xs ≤ fuel →
      writeLists sortC fuel xs = some (rawLs (canonLs sortC xs)) := by
  match xs with
  | .nil =>
    intro sortC hwf fuel hfuel
    have h1 : 1 ≤ fuel := by
      simp [eszLs] at hfuel
      omega
    obtain ⟨f, rfl⟩ : ∃ f, fuel = f + 1 := ⟨fuel - 1, by omega⟩
    simp [writeLists, rawLs, canonLs]
  | .cons l rest =>
    intro sortC hwf fuel hfuel
    have hwf2 : wfList l = true ∧ wfLists rest = true := by
      simpa [wfLists] using hwf
    obtain ⟨hwfl, hwfrest⟩ := hwf2
    have hsz : 1 + eszL l + eszLs rest ≤ fuel := by
      simpa [eszLs] using hfuel
    obtain ⟨f, rfl⟩ : ∃ f, fuel = f + 1 := ⟨fuel - 1, by omega⟩
    have hhead := encL_ok l sortC hwfl f (by omega)
    have htail := encLs_ok rest sortC hwfrest f (by omega)
    simp [writeLists, hhead, htail, rawLs, canonLs]

theorem encCs_ok (xs : Compounds) : ∀ (sortC : Bool), wfCompounds xs = true →
    ∀ fuel, eszCs xs ≤ fuel →
      writeCompounds sortC fuel xs = some (rawCs (canonCs sortC xs)) := by
  match xs with
  | .nil =>
    intro sortC hwf fuel hfuel
    have h1 : 1 ≤ fuel := by
      simp [eszCs] at hfuel
      omega
    obtain ⟨f, rfl⟩ : ∃ f, fuel = f + 1 := ⟨fuel - 1, by omega⟩
    simp [writeCompounds, rawCs, canonCs]
  | .cons m rest =>
    intro sortC hwf fuel hfuel
    have hwf2 : wfEntries m = true ∧ nodupNames m = true ∧ wfCompounds rest = true := by
      simpa [wfCompounds, Bool.and_assoc, and_assoc] using hwf
    obtain ⟨hwfE, _, hwfrest⟩ := hwf2
    have hsz : 1 + (1 + eszE m) + eszCs rest ≤ fuel := by
      simpa [eszCs] using hfuel
    obtain ⟨f, rfl⟩ : ∃ f, fuel = f + 1 := ⟨fuel - 1, by omega⟩
    have hhead := writeCompound_of_pointwise sortC m
      (encE_pointwise m sortC hwfE) f (by omega)
    have htail := encCs_ok rest sortC hwfrest f (by omega)
    simp [writeCompounds, hhead, htail, rawCs, canonCs]

theorem encE_pointwise (m : Entries) : ∀ (sortC : Bool), wfEntries m = true →
    ∀ e ∈ entriesToList m, EntryFact sortC e := by
  match m with
  | .nil =>
    intro sortC hwf e he
    simp [entriesToList] at he
  | .cons name t v rest =>
    intro sortC hwf e he
    have hwf' : (t == Ty.TypeEnd) = false ∧ nameOk name = true ∧
        wfPayload t v = true ∧ wfEntries rest = true := by
      simpa [wfEntries, Bool.and_assoc, Bool.not_eq_true'] using hwf
    obtain ⟨htne', hname, hpay, hwfrest⟩ := hwf'
    have htne : t ≠ Ty.TypeEnd := by simpa using htne'
    simp only [entriesToList, List.mem_cons] at he
    rcases he with he | he
    · subst he
      refine ⟨by simp [entryWf, htne', hname, hpay], ?_⟩
      intro f hf
      exact encV_ok v sortC t name hpay htne hname f hf
    · exact encE_pointwise rest sortC hwfrest e he

end

/-! ## Decoder correctness: reading back a canonical byte image -/

theorem readIntBE_intBytes {w : Nat} {n : Int} (hw : 1 ≤ w)
    (hlo : -2 ^ (8 * w - 1) ≤ n) (hhi : n < 2 ^ (8 * w - 1)) (rest : List Nat) :
    readIntBE w (intBytes w n ++ rest) = .ok (n, rest) := by
  rw [readIntBE, takeN_append_of_length (length_intBytes w n) rest]
  simp [signedOfNat_natOfBytes_intBytes hw hlo hhi]

theorem readBitsBE_bytesBE {w u : Nat} (h : u < 2 ^ (8 * w)) (rest : List Nat) :
    readBitsBE w (bytesBE w u ++ rest) = .ok (u, rest) := by
  rw [readBitsBE, takeN_append_of_length (length_bytesBE w u) rest]
  have : u < 256 ^ w := by
    calc u < 2 ^ (8 * w) := h
      _ = 256 ^ w := by
        rw [pow_mul]
        norm_num
  simp [natOfBytes_bytesBE w u this]

/-- Reading back a 32-bit length field written for `len ≤ maxInt32`. -/
theorem readIntBE_len32 {len : Nat} (h : len ≤ maxInt32) (rest : List Nat) :
    readIntBE 4 (intBytes 4 (len : Int) ++ rest) = .ok ((len : Int), rest) := by
  apply readIntBE_intBytes (by norm_num)
  · have : (0 : Int) ≤ (len : Int) := by positivity
    calc -2 ^ (8 * 4 - 1) ≤ (0 : Int) := by norm_num
      _ ≤ (len : Int) := this
  · have : (len : Int) ≤ ((maxInt32 : Nat) : Int) := by exact_mod_cast h
    calc (len : Int) ≤ ((maxInt32 : Nat) : Int) := this
      _ < 2 ^ (8 * 4 - 1) := by norm_num [maxInt32]

/-- Reading back a 16-bit length field written for `len ≤ maxShort`. -/
theorem readIntBE_len16 {len : Nat} (h : len ≤ maxShort) (rest : List Nat) :
    readIntBE 2 (intBytes 2 (len : Int) ++ rest) = .ok ((len : Int), rest) := by
  apply readIntBE_intBytes (by norm_num)
  · have : (0 : Int) ≤ (len : Int) := by positivity
    calc -2 ^ (8 * 2 - 1) ≤ (0 : Int) := by norm_num
      _ ≤ (len : Int) := this
  · have : (len : Int) ≤ ((maxShort : Nat) : Int) := by exact_mod_cast h
    calc (len : Int) ≤ ((maxShort : Nat) : Int) := this
      _ < 2 ^ (8 * 2 - 1) := by norm_num [maxShort]

theorem readString_raw {s : List Nat} (h : s.length ≤ maxShort) (rest : List Nat) :
    readString (intBytes 2 (s.length : Int) ++ s ++ rest) = .ok (s, rest) := by
  rw [readString, List.append_assoc, readIntBE_len16 h (s ++ rest)]
  have h0 : ¬ ((s.length : Int) < 0) := by omega
  simp only [h0, if_false]
  rw [Int.toNat_natCast, takeN_append]

theorem readByteArray_raw {b : List Nat} (h : b.length ≤ maxInt32) (rest : List Nat) :
    readByteArray (intBytes 4 (b.length : Int) ++ b ++ rest) = .ok (b, rest) := by
  rw [readByteArray, List.append_assoc, readIntBE_len32 h (b ++ rest)]
  have h0 : ¬ ((b.length : Int) < 0) := by omega
  simp only [h0, if_false]
  rw [Int.toNat_natCast, takeN_append]

theorem readInts_raw {w : Nat} (hw : 1 ≤ w) {xs : List Int}
    (hall : ∀ x ∈ xs, -2 ^ (8 * w - 1) ≤ x ∧ x < 2 ^ (8 * w - 1)) (rest : List Nat) :
    readInts w xs.length ((xs.map (intBytes w)).flatten ++ rest) = .ok (xs, rest) := by
  induction xs with
  | nil => simp [readInts]
  | cons x tail ih =>
    obtain ⟨hlo, hhi⟩ := hall x (by simp)
    have htail := ih (fun y hy => hall y (by simp [hy]))
    simp only [List.map_cons, List.flatten_cons, List.length_cons, List.append_assoc]
    rw [readInts, readIntBE_intBytes hw hlo hhi]
    simp [htail]

theorem readBits_raw {w : Nat} {xs : List Nat}
    (hall : ∀ x ∈ xs, x < 2 ^ (8 * w)) (rest : List Nat) :
    readBits w xs.length ((xs.map (bytesBE w)).flatten ++ rest) = .ok (xs, rest) := by
  induction xs with
  | nil => simp [readBits]
  | cons x tail ih =>
    have hx := hall x (by simp)
    have htail := ih (fun y hy => hall y (by simp [hy]))
    simp only [List.map_cons, List.flatten_cons, List.length_cons, List.append_assoc]
    rw [readBits, readBitsBE_bytesBE hx]
    simp [htail]

theorem readIntArray_raw {xs : List Int} (hlen : xs.length ≤ maxInt32)
    (hall : ∀ x ∈ xs, -2 ^ (8 * 4 - 1) ≤ x ∧ x < 2 ^ (8 * 4 - 1)) (rest : List Nat) :
    readIntArray (intBytes 4 (xs.length : Int) ++ (xs.map (intBytes 4)).flatten ++ rest)
      = .ok (xs, rest) := by
  rw [readIntArray, List.append_assoc, readIntBE_len32 hlen]
  have h0 : ¬ ((xs.length : Int) < 0) := by omega
  simp only [h0, if_false]
  rw [Int.toNat_natCast, readInts_raw (by norm_num) hall]

theorem readLongArray_raw {xs : List Int} (hlen : xs.length ≤ maxInt32)
    (hall : ∀ x ∈ xs, -2 ^ (8 * 8 - 1) ≤ x ∧ x < 2 ^ (8 * 8 - 1)) (rest : List Nat) :
    readLongArray (intBytes 4 (xs.length : Int) ++ (xs.map (intBytes 8)).flatten ++ rest)
      = .ok (xs, rest) := by
  rw [readLongArray, List.append_assoc, readIntBE_len32 hlen]
  have h0 : ¬ ((xs.length : Int) < 0) := by omega
  simp only [h0, if_false]
  rw [Int.toNat_natCast, readInts_raw (by norm_num) hall]

theorem readByteArrays_raw {xs : List (List Nat)}
    (hall : ∀ b ∈ xs, b.length ≤ maxInt32) (rest : List Nat) :
    readByteArrays xs.length
      ((xs.map (fun b => intBytes 4 (b.length : Int) ++ b)).flatten ++ rest)
      = .ok (xs, rest) := by
  induction xs with
  | nil => simp [readByteArrays]
  | cons b tail ih =>
    have hb := hall b (by simp)
    have htail := ih (fun y hy => hall y (by simp [hy]))
    simp only [List.map_cons, List.flatten_cons, List.length_cons, List.append_assoc]
    rw [readByteArrays, ← List.append_assoc (intBytes 4 (b.length : Int)),
      readByteArray_raw hb]
    simp [htail]

theorem readStrings_raw {xs : List (List Nat)}
    (hall : ∀ s ∈ xs, s.length ≤ maxShort) (rest : List Nat) :
    readStrings xs.length
      ((xs.map (fun s => intBytes 2 (s.length : Int) ++ s)).flatten ++ rest)
      = .ok (xs, rest) := by
  induction xs with
  | nil => simp [readStrings]
  | cons b tail ih =>
    have hb := hall b (by simp)
    have htail := ih (fun y hy => hall y (by simp [hy]))
    simp only [List.map_cons, List.flatten_cons, List.length_cons, List.append_assoc]
    rw [readStrings, ← List.append_assoc (intBytes 2 (b.length : Int)),
      readString_raw hb]
    simp [htail]

theorem readIntArrays_raw {xs : List (List Int)}
    (hall : ∀ a ∈ xs, a.length ≤ maxInt32 ∧
      ∀ x ∈ a, -2 ^ (8 * 4 - 1) ≤ x ∧ x < 2 ^ (8 * 4 - 1)) (rest : List Nat) :
    readIntArrays xs.length
      ((xs.map (fun a => intBytes 4 (a.length : Int) ++ (a.map (intBytes 4)).flatten)).flatten
        ++ rest)
      = .ok (xs, rest) := by
  induction xs with
  | nil => simp [readIntArrays]
  | cons a tail ih =>
    obtain ⟨ha1, ha2⟩ := hall a (by simp)
    have htail := ih (fun y hy => hall y (by simp [hy]))
    simp only [List.map_cons, List.flatten_cons, List.length_cons, List.append_assoc]
    rw [readIntArrays,
      ← List.append_assoc (intBytes 4 (a.length : Int)) ((a.map (intBytes 4)).flatten),
      readIntArray_raw ha1 ha2]
    simp [htail]

theorem readLongArrays_raw {xs : List (List Int)}
    (hall : ∀ a ∈ xs, a.length ≤ maxInt32 ∧
      ∀ x ∈ a, -2 ^ (8 * 8 - 1) ≤ x ∧ x < 2 ^ (8 * 8 - 1)) (rest : List Nat) :
    readLongArrays xs.length
      ((xs.map (fun a => intBytes 4 (a.length : Int) ++ (a.map (intBytes 8)).flatten)).flatten
        ++ rest)
      = .ok (xs, rest) := by
  induction xs with
  | nil => simp [readLongArrays]
  | cons a tail ih =>
    obtain ⟨ha1, ha2⟩ := hall a (by simp)
    have htail := ih (fun y hy => hall y (by simp [hy]))
    simp only [List.map_cons, List.flatten_cons, List.length_cons, List.append_assoc]
    rw [readLongArrays,
      ← List.append_assoc (intBytes 4 (a.length : Int)) ((a.map (intBytes 8)).flatten),
      readLongArray_raw ha1 ha2]
    simp [htail]

/-! Byte-length lower bounds of canonical images, and the fuel bound:
`input length + 1` fuel always suffices to decode a canonical image. -/

theorem rawE_len_pos (m : Entries) : 1 ≤ (rawE m).length := by
  match m with
  | .nil => simp [rawE]
  | .cons name t v rest => simp [rawE]

theorem rawL_len_ge (l : NbtList) : 5 ≤ (rawL l).length := by
  match l with
  | .mk t a => simp [rawL, length_intBytes]

mutual

theorem dszV_le (v : Value) : dszV v ≤ (rawV v).length + 1 := by
  match v with
  | .vNil | .vByte _ | .vShort _ | .vInt _ | .vLong _ | .vFloat _ | .vDouble _
  | .vByteArray _ | .vString _ | .vIntArray _ | .vLongArray _ =>
    simp [dszV]
  | .vList l =>
    have := dszL_le l
    simp only [dszV, rawV]
    omega
  | .vCompound m =>
    have := dszC_le m
    simp only [dszV, rawV]
    omega

theorem dszL_le (l : NbtList) : dszL l ≤ (rawL l).length := by
  match l with
  | .mk t a =>
    have := dszA_le a
    simp only [dszL, rawL, List.length_cons, List.length_append, length_intBytes]
    omega

theorem dszA_le (a : Arr) : dszA a ≤ (rawA a).length + 2 := by
  match a with
  | .aNil | .aByte _ | .aShort _ | .aInt _ | .aLong _ | .aFloat _ | .aDouble _
  | .aByteArray _ | .aString _ | .aIntArray _ | .aLongArray _ =>
    simp [dszA]
  | .aList xs =>
    have := dszLs_le xs
    simp only [dszA, rawA]
    omega
  | .aCompound xs =>
    have := dszCs_le xs
    simp only [dszA, rawA]
    omega

theorem dszLs_le (xs : Lists) : dszLs xs ≤ (rawLs xs).length + 2 := by
  match xs with
  | .nil => simp [dszLs]
  | .cons l rest =>
    have h1 := dszL_le l
    have h2 := dszLs_le rest
    have h3 := rawL_len_ge l
    simp only [dszLs, rawLs, List.length_append]
    omega

theorem dszCs_le (xs : Compounds) : dszCs xs ≤ (rawCs xs).length + 2 := by
  match xs with
  | .nil => simp [dszCs]
  | .cons m rest =>
    have h1 := dszC_le m
    have h2 := dszCs_le rest
    have h3 := rawE_len_pos m
    simp only [dszCs, rawCs, List.length_append]
    omega

theorem dszC_le (m : Entries) : dszC m ≤ (rawE m).length + 1 := by
  match m with
  | .nil => simp [dszC, rawE]
  | .cons name t v rest =>
    have h1 := dszV_le v
    have h2 := dszC_le rest
    have h3 := rawE_len_pos rest
    simp only [dszC, rawE, List.length_cons, List.length_append, length_intBytes]
    omega

end

theorem readNamedTag_zero {fuel : Nat} (h : 1 ≤ fuel) (rest : List Nat) :
    readNamedTag fuel (0 :: rest) = .ok (⟨Ty.TypeEnd, [], Value.vNil⟩, rest) := by
  obtain ⟨g, rfl⟩ : ∃ g, fuel = g + 1 := ⟨fuel - 1, by omega⟩
  rfl

theorem entryNames_entAppend (a b : Entries) :
    entryNames (entAppend a b) = entryNames a ++ entryNames b := by
  match a with
  | .nil => rfl
  | .cons name t v rest => simp [entAppend, entryNames, entryNames_entAppend rest b]

theorem containsName_false_of_nodup_append {acc : Entries} {name : List Nat}
    {t : Ty} {v : Value} {rest : Entries}
    (h : nodupNames (entAppend acc (.cons name t v rest)) = true) :
    containsName acc name = false := by
  rw [nodupNames_iff, entryNames_entAppend, entryNames] at h
  have hnotmem : name ∉ entryNames acc := by
    intro hmem
    have := List.disjoint_of_nodup_append h
    exact this hmem (by simp)
  rw [← Bool.not_eq_true, containsName_iff]
  exact hnotmem

mutual

theorem decV_ok (v : Value) : ∀ (t : Ty) (name : List Nat),
    wfPayload t v = true → t ≠ Ty.TypeEnd → name.length ≤ maxShort →
    ∀ fuel, 1 + dszV v ≤ fuel → ∀ rest,
      readNamedTag fuel (rawNT ⟨t, name, v⟩ ++ rest) = .ok (⟨t, name, v⟩, rest) := by
  intro t name hwf htne hname fuel hfuel rest
  obtain ⟨f, rfl⟩ : ∃ f, fuel = f + 1 := ⟨fuel - 1, by omega⟩
  rw [rawNT]
  simp only [if_neg htne, List.cons_append]
  rw [readNamedTag]
  rw [List.append_assoc (intBytes 2 (name.length : Int) ++ name) (rawV v) rest,
    List.append_assoc (intBytes 2 (name.length : Int)) name (rawV v ++ rest),
    ← List.append_assoc (intBytes 2 (name.length : Int)) name (rawV v ++ rest)]
  cases t with
  | TypeEnd => exact absurd rfl htne
  | TypeByte =>
    cases v <;> simp [wfPayload] at hwf
    rename_i n
    simp only [Ty.toByte, rawV]
    rw [readString_raw hname]
    simp only [rawV]
    have hn : -2 ^ (8 * 1 - 1) ≤ n ∧ n < 2 ^ (8 * 1 - 1) := by
      simp [i8Ok] at hwf
      norm_num
      omega
    simp [readIntBE_intBytes (by norm_num) hn.1 hn.2 rest, Except.map]
  | TypeShort =>
    cases v <;> simp [wfPayload] at hwf
    rename_i n
    simp only [Ty.toByte, rawV]
    rw [readString_raw hname]
    simp only [rawV]
    have hn : -2 ^ (8 * 2 - 1) ≤ n ∧ n < 2 ^ (8 * 2 - 1) := by
      simp [i16Ok] at hwf
      norm_num
      omega
    simp [readIntBE_intBytes (by norm_num) hn.1 hn.2 rest, Except.map]
  | TypeInt =>
    cases v <;> simp [wfPayload] at hwf
    rename_i n
    simp only [Ty.toByte, rawV]
    rw [readString_raw hname]
    simp only [rawV]
    have hn : -2 ^ (8 * 4 - 1) ≤ n ∧ n < 2 ^ (8 * 4 - 1) := by
      simp [i32Ok] at hwf
      norm_num
      omega
    simp [readIntBE_intBytes (by norm_num) hn.1 hn.2 rest, Except.map]
  | TypeLong =>
    cases v <;> simp [wfPayload] at hwf
    rename_i n
    simp only [Ty.toByte, rawV]
    rw [readString_raw hname]
    simp only [rawV]
    have hn : -2 ^ (8 * 8 - 1) ≤ n ∧ n < 2 ^ (8 * 8 - 1) := by
      simp [i64Ok] at hwf
      norm_num
      omega
    simp [readIntBE_intBytes (by norm_num) hn.1 hn.2 rest, Except.map]
  | TypeFloat =>
    cases v <;> simp [wfPayload] at hwf
    rename_i bits
    simp only [Ty.toByte, rawV]
    rw [readString_raw hname]
    simp only [rawV]
    have hb : bits < 2 ^ (8 * 4) := by
      simp [f32Ok] at hwf
      norm_num
      omega
    simp [readBitsBE_bytesBE hb rest, Except.map]
  | TypeDouble =>
    cases v <;> simp [wfPayload] at hwf
    rename_i bits
    simp only [Ty.toByte, rawV]
    rw [readString_raw hname]
    simp only [rawV]
    have hb : bits < 2 ^ (8 * 8) := by
      simp [f64Ok] at hwf
      norm_num
      omega
    simp [readBitsBE_bytesBE hb rest, Except.map]
  | TypeByteArray =>
    cases v <;> simp [wfPayload] at hwf
    rename_i bs
    simp only [Ty.toByte, rawV]
    rw [readString_raw hname]
    simp only [rawV]
    have hlen : bs.length ≤ maxInt32 := by
      simp [bArrOk, lenOk] at hwf
      exact hwf.1
    have hba : readByteArray (intBytes 4 (bs.length : Int) ++ (bs ++ rest))
        = .ok (bs, rest) := by
      rw [← List.append_assoc]
      exact readByteArray_raw hlen rest
    simp [hba, Except.map]
  | TypeString =>
    cases v <;> simp [wfPayload] at hwf
    rename_i s
    simp only [Ty.toByte, rawV]
    rw [readString_raw hname]
    simp only [rawV]
    have hlen : s.length ≤ maxShort := by
      simp [sPayloadOk] at hwf
      exact hwf.1
    have hs2 : readString (intBytes 2 (s.length : Int) ++ (s ++ rest))
        = .ok (s, rest) := by
      rw [← List.append_assoc]
      exact readString_raw hlen rest
    simp [hs2, Except.map]
  | TypeList =>
    cases v <;> simp [wfPayload] at hwf
    rename_i l
    simp only [Ty.toByte, rawV]
    rw [readString_raw hname]
    simp only [rawV]
    have hl := decL_ok l hwf f (by
      simp only [dszV] at hfuel
      omega) rest
    simp [hl, Except.map]
  | TypeCompound =>
    cases v <;> simp [wfPayload] at hwf
    rename_i m
    obtain ⟨hwfE, hnd⟩ := hwf
    simp only [Ty.toByte, rawV]
    rw [readString_raw hname]
    simp only [rawV]
    have hm := decE_ok m hwfE Entries.nil (by simpa [entAppend] using hnd) f (by
      simp only [dszV] at hfuel
      omega) rest
    simp [entAppend] at hm
    simp [hm, Except.map]
  | TypeIntArray =>
    cases v <;> simp [wfPayload] at hwf
    rename_i xs
    simp only [Ty.toByte, rawV]
    rw [readString_raw hname]
    simp only [rawV]
    obtain ⟨hlen', hall'⟩ : lenOk xs.length = true ∧ ∀ x ∈ xs, i32Ok x = true := by
      simpa [iArrOk] using hwf
    have hlen : xs.length ≤ maxInt32 := by simpa [lenOk] using hlen'
    have hall : ∀ x ∈ xs, -2 ^ (8 * 4 - 1) ≤ x ∧ x < 2 ^ (8 * 4 - 1) := by
      intro x hx
      have h2 := hall' x hx
      simp [i32Ok] at h2
      norm_num
      omega
    have hia : readIntArray
        (intBytes 4 (xs.length : Int) ++ ((xs.map (intBytes 4)).flatten ++ rest))
        = .ok (xs, rest) := by
      rw [← List.append_assoc]
      exact readIntArray_raw hlen hall rest
    simp [hia, Except.map]
  | TypeLongArray =>
    cases v <;> simp [wfPayload] at hwf
    rename_i xs
    simp only [Ty.toByte, rawV]
    rw [readString_raw hname]
    simp only [rawV]
    obtain ⟨hlen', hall'⟩ : lenOk xs.length = true ∧ ∀ x ∈ xs, i64Ok x = true := by
      simpa [lArrOk] using hwf
    have hlen : xs.length ≤ maxInt32 := by simpa [lenOk] using hlen'
    have hall : ∀ x ∈ xs, -2 ^ (8 * 8 - 1) ≤ x ∧ x < 2 ^ (8 * 8 - 1) := by
      intro x hx
      have h2 := hall' x hx
      simp [i64Ok] at h2
      norm_num
      omega
    have hla : readLongArray
        (intBytes 4 (xs.length : Int) ++ ((xs.map (intBytes 8)).flatten ++ rest))
        = .ok (xs, rest) := by
      rw [← List.append_assoc]
      exact readLongArray_raw hlen hall rest
    simp [hla, Except.map]

theorem decL_ok (l : NbtList) : wfList l = true →
    ∀ fuel, dszL l ≤ fuel → ∀ rest,
      readList fuel (rawL l ++ rest) = .ok (l, rest) := by
  intro hwf fuel hfuel rest
  match l with
  | .mk t a =>
    have h1 : 1 ≤ fuel := by
      simp [dszL] at hfuel
      omega
    obtain ⟨f, rfl⟩ : ∃ f, fuel = f + 1 := ⟨fuel - 1, by omega⟩
    rw [rawL]
    simp only [List.cons_append, List.append_assoc]
    rw [readList]
    cases t <;> cases a <;> simp [wfList] at hwf
    · -- End / aNil
      have h00 := @readIntBE_len32 0 (by norm_num [maxInt32]) rest
      norm_num at h00
      simp [arrLenT, rawA, h00, Ty.toByte]
    · -- Byte / aByte
      rename_i xs
      have hlen : xs.length ≤ maxInt32 := by simpa [lenOk] using hwf.1
      have hall : ∀ x ∈ xs, -2 ^ (8 * 1 - 1) ≤ x ∧ x < 2 ^ (8 * 1 - 1) := by
        intro x hx
        have h2 := hwf.2 x hx
        simp [i8Ok] at h2
        norm_num
        omega
      rw [arrLenT, readIntBE_len32 hlen]
      have h0 : ¬ ((xs.length : Int) < 0) := by omega
      simp [h0, rawA, Int.toNat_natCast, readInts_raw (by norm_num) hall rest, Except.map, Ty.toByte]
    · -- Short / aShort
      rename_i xs
      have hlen : xs.length ≤ maxInt32 := by simpa [lenOk] using hwf.1
      have hall : ∀ x ∈ xs, -2 ^ (8 * 2 - 1) ≤ x ∧ x < 2 ^ (8 * 2 - 1) := by
        intro x hx
        have h2 := hwf.2 x hx
        simp [i16Ok] at h2
        norm_num
        omega
      rw [arrLenT, readIntBE_len32 hlen]
      have h0 : ¬ ((xs.length : Int) < 0) := by omega
      simp [h0, rawA, Int.toNat_natCast, readInts_raw (by norm_num) hall rest, Except.map, Ty.toByte]
    · -- Int / aInt
      rename_i xs
      have hlen : xs.length ≤ maxInt32 := by simpa [lenOk] using hwf.1
      have hall : ∀ x ∈ xs, -2 ^ (8 * 4 - 1) ≤ x ∧ x < 2 ^ (8 * 4 - 1) := by
        intro x hx
        have h2 := hwf.2 x hx
        simp [i32Ok] at h2
        norm_num
        omega
      rw [arrLenT, readIntBE_len32 hlen]
      have h0 : ¬ ((xs.length : Int) < 0) := by omega
      simp [h0, rawA, Int.toNat_natCast, readInts_raw (by norm_num) hall rest, Except.map, Ty.toByte]
    · -- Long / aLong
      rename_i xs
      have hlen : xs.length ≤ maxInt32 := by simpa [lenOk] using hwf.1
      have hall : ∀ x ∈ xs, -2 ^ (8 * 8 - 1) ≤ x ∧ x < 2 ^ (8 * 8 - 1) := by
        intro x hx
        have h2 := hwf.2 x hx
        simp [i64Ok] at h2
        norm_num
        omega
      rw [arrLenT, readIntBE_len32 hlen]
      have h0 : ¬ ((xs.length : Int) < 0) := by omega
      simp [h0, rawA, Int.toNat_natCast, readInts_raw (by norm_num) hall rest, Except.map, Ty.toByte]
    · -- Float / aFloat
      rename_i xs
      have hlen : xs.length ≤ maxInt32 := by simpa [lenOk] using hwf.1
      have hall : ∀ x ∈ xs, x < 2 ^ (8 * 4) := by
        intro x hx
        have h2 := hwf.2 x hx
        simp [f32Ok] at h2
        norm_num
        omega
      rw [arrLenT, readIntBE_len32 hlen]
      have h0 : ¬ ((xs.length : Int) < 0) := by omega
      simp [h0, rawA, Int.toNat_natCast, readBits_raw hall rest, Except.map, Ty.toByte]
    · -- Double / aDouble
      rename_i xs
      have hlen : xs.length ≤ maxInt32 := by simpa [lenOk] using hwf.1
      have hall : ∀ x ∈ xs, x < 2 ^ (8 * 8) := by
        intro x hx
        have h2 := hwf.2 x hx
        simp [f64Ok] at h2
        norm_num
        omega
      rw [arrLenT, readIntBE_len32 hlen]
      have h0 : ¬ ((xs.length : Int) < 0) := by omega
      simp [h0, rawA, Int.toNat_natCast, readBits_raw hall rest, Except.map, Ty.toByte]
    · -- ByteArray / aByteArray
      rename_i xs
      obtain ⟨hlen', hall'⟩ := hwf
      have hlen : xs.length ≤ maxInt32 := by simpa [lenOk] using hlen'
      have hall : ∀ b ∈ xs, b.length ≤ maxInt32 := by
        intro b hb
        have h2 := hall' b hb
        simp [bArrOk, lenOk] at h2
        exact h2.1
      rw [arrLenT, readIntBE_len32 hlen]
      have h0 : ¬ ((xs.length : Int) < 0) := by omega
      simp [h0, rawA, Int.toNat_natCast, readByteArrays_raw hall rest, Except.map, Ty.toByte]
    · -- String / aString
      rename_i xs
      obtain ⟨hlen', hall'⟩ := hwf
      have hlen : xs.length ≤ maxInt32 := by simpa [lenOk] using hlen'
      have hall : ∀ s ∈ xs, s.length ≤ maxShort := by
        intro b hb
        have h2 := hall' b hb
        simp [sPayloadOk] at h2
        exact h2.1
      rw [arrLenT, readIntBE_len32 hlen]
      have h0 : ¬ ((xs.length : Int) < 0) := by omega
      simp [h0, rawA, Int.toNat_natCast, readStrings_raw hall rest, Except.map, Ty.toByte]
    · -- List / aList
      rename_i xs
      obtain ⟨hlen', hwfLs⟩ := hwf
      have hlen : listsLen xs ≤ maxInt32 := by simpa [lenOk] using hlen'
      have hls := decLs_ok xs hwfLs f (by
        simp only [dszL, dszA] at hfuel
        omega) rest
      rw [arrLenT, readIntBE_len32 hlen]
      have h0 : ¬ ((listsLen xs : Int) < 0) := by omega
      simp [h0, rawA, Int.toNat_natCast, hls, Except.map, Ty.toByte]
    · -- Compound / aCompound
      rename_i xs
      obtain ⟨hlen', hwfCs⟩ := hwf
      have hlen : compoundsLen xs ≤ maxInt32 := by simpa [lenOk] using hlen'
      have hcs := decCs_ok xs hwfCs f (by
        simp only [dszL, dszA] at hfuel
        omega) rest
      rw [arrLenT, readIntBE_len32 hlen]
      have h0 : ¬ ((compoundsLen xs : Int) < 0) := by omega
      simp [h0, rawA, Int.toNat_natCast, hcs, Except.map, Ty.toByte]
    · -- IntArray / aIntArray
      rename_i xs
      obtain ⟨hlen', hall'⟩ := hwf
      have hlen : xs.length ≤ maxInt32 := by simpa [lenOk] using hlen'
      have hall : ∀ a ∈ xs, a.length ≤ maxInt32 ∧
          ∀ x ∈ a, -2 ^ (8 * 4 - 1) ≤ x ∧ x < 2 ^ (8 * 4 - 1) := by
        intro a ha
        have h2 := hall' a ha
        simp [iArrOk, lenOk] at h2
        refine ⟨h2.1, fun x hx => ?_⟩
        have h3 := h2.2 x hx
        simp [i32Ok] at h3
        norm_num
        omega
      rw [arrLenT, readIntBE_len32 hlen]
      have h0 : ¬ ((xs.length : Int) < 0) := by omega
      simp [h0, rawA, Int.toNat_natCast, readIntArrays_raw hall rest, Except.map, Ty.toByte]
    · -- LongArray / aLongArray
      rename_i xs
      obtain ⟨hlen', hall'⟩ := hwf
      have hlen : xs.length ≤ maxInt32 := by simpa [lenOk] using hlen'
      have hall : ∀ a ∈ xs, a.length ≤ maxInt32 ∧
          ∀ x ∈ a, -2 ^ (8 * 8 - 1) ≤ x ∧ x < 2 ^ (8 * 8 - 1) := by
        intro a ha
        have h2 := hall' a ha
        simp [lArrOk, lenOk] at h2
        refine ⟨h2.1, fun x hx => ?_⟩
        have h3 := h2.2 x hx
        simp [i64Ok] at h3
        norm_num
        omega
      rw [arrLenT, readIntBE_len32 hlen]
      have h0 : ¬ ((xs.length : Int) < 0) := by omega
      simp [h0, rawA, Int.toNat_natCast, readLongArrays_raw hall rest, Except.map, Ty.toByte]

theorem decLs_ok (xs : Lists) : wfLists xs = true →
    ∀ fuel, dszLs xs ≤ fuel → ∀ rest,
      readLists fuel (listsLen xs) (rawLs xs ++ rest) = .ok (xs, rest) := by
  intro hwf fuel hfuel rest
  match xs with
  | .nil => simp [listsLen, readLists, rawLs]
  | .cons l tail =>
    have hwf2 : wfList l = true ∧ wfLists tail = true := by
      simpa [wfLists] using hwf
    have hsz : 1 + max (dszL l) (dszLs tail) ≤ fuel := by
      simpa [dszLs] using hfuel
    obtain ⟨f, rfl⟩ : ∃ f, fuel = f + 1 := ⟨fuel - 1, by omega⟩
    have hhead := decL_ok l hwf2.1 f (by omega) (rawLs tail ++ rest)
    have htail := decLs_ok tail hwf2.2 f (by omega) rest
    rw [listsLen, rawLs]
    rw [show (1 : Nat) + listsLen tail = listsLen tail + 1 by omega]
    rw [readLists, List.append_assoc, hhead]
    simp [htail]

theorem decCs_ok (xs : Compounds) : wfCompounds xs = true →
    ∀ fuel, dszCs xs ≤ fuel → ∀ rest,
      readComps fuel (compoundsLen xs) (rawCs xs ++ rest) = .ok (xs, rest) := by
  intro hwf fuel hfuel rest
  match xs with
  | .nil => simp [compoundsLen, readComps, rawCs]
  | .cons m tail =>
    have hwf2 : wfEntries m = true ∧ nodupNames m = true ∧ wfCompounds tail = true := by
      simpa [wfCompounds, Bool.and_assoc, and_assoc] using hwf
    obtain ⟨hwfE, hnd, hwftail⟩ := hwf2
    have hsz : 1 + max (dszC m) (dszCs tail) ≤ fuel := by
      simpa [dszCs] using hfuel
    obtain ⟨f, rfl⟩ : ∃ f, fuel = f + 1 := ⟨fuel - 1, by omega⟩
    have hhead := decE_ok m hwfE Entries.nil (by simpa [entAppend] using hnd) f
      (by omega) (rawCs tail ++ rest)
    simp only [entAppend] at hhead
    have htail := decCs_ok tail hwftail f (by omega) rest
    rw [compoundsLen, rawCs]
    rw [show (1 : Nat) + compoundsLen tail = compoundsLen tail + 1 by omega]
    rw [readComps, List.append_assoc, hhead]
    simp [htail]

theorem decE_ok (m : Entries) : wfEntries m = true →
    ∀ acc, nodupNames (entAppend acc m) = true →
    ∀ fuel, dszC m ≤ fuel → ∀ rest,
      readCompound fuel acc (rawE m ++ rest) = .ok (entAppend acc m, rest) := by
  intro hwf acc hnd fuel hfuel rest
  match m with
  | .nil =>
    have h2 : 2 ≤ fuel := by
      simp [dszC] at hfuel
      omega
    obtain ⟨f, rfl⟩ : ∃ f, fuel = f + 1 := ⟨fuel - 1, by omega⟩
    rw [rawE, List.cons_append, readCompound, readNamedTag_zero (by omega)]
    simp [entAppend_nil]
  | .cons name t v tail =>
    have hwf2 : (t == Ty.TypeEnd) = false ∧ nameOk name = true ∧
        wfPayload t v = true ∧ wfEntries tail = true := by
      simpa [wfEntries, Bool.and_assoc, Bool.not_eq_true'] using hwf
    obtain ⟨htne', hname, hpay, hwftail⟩ := hwf2
    have htne : t ≠ Ty.TypeEnd := by simpa using htne'
    have hnamelen : name.length ≤ maxShort := by
      simp [nameOk] at hname
      exact hname.1
    have hsz : 1 + max (1 + dszV v) (dszC tail) ≤ fuel := by
      simpa [dszC] using hfuel
    obtain ⟨f, rfl⟩ : ∃ f, fuel = f + 1 := ⟨fuel - 1, by omega⟩
    rw [rawE_cons_eq name t v tail htne, List.append_assoc, readCompound]
    rw [decV_ok v t name hpay htne hnamelen f (by omega) (rawE tail ++ rest)]
    have hcontains := containsName_false_of_nodup_append (t := t) (v := v) hnd
    have hnd' : nodupNames (entAppend (entAppend acc (.cons name t v .nil)) tail) = true := by
      rw [entAppend_assoc]
      simpa [entAppend] using hnd
    have htail := decE_ok tail hwftail
      (entAppend acc (.cons name t v .nil)) hnd' f (by omega) rest
    simp only [htne, if_false, hcontains, Bool.false_eq_true]
    simp [htail, entAppend_assoc, entAppend]

end

theorem dszNT_le (tag : NamedTag) (h : wfNT tag = true) :
    dszNT tag ≤ (rawNT tag).length := by
  obtain ⟨t, name, v⟩ := tag
  by_cases ht : t = Ty.TypeEnd
  · subst ht
    have hp : wfPayload Ty.TypeEnd v = true := by
      have h' := h
      simp [wfNT] at h'
      exact h'.2
    cases v <;> simp [wfPayload] at hp
    simp [dszNT, rawNT, dszV]
  · have h1 := dszV_le v
    simp only [dszNT, rawNT, if_neg ht, List.length_cons, List.length_append,
      length_intBytes]
    omega

/-! ## Canonicalisation preserves well-formedness; it is the identity in
unsorted mode and idempotent in sorted mode -/

theorem entryNames_canonE (sortC : Bool) (m : Entries) :
    entryNames (canonE sortC m) = entryNames m := by
  rw [entryNames_eq_map, canonE_toList, entryNames_eq_map, List.map_map]
  rfl

theorem nodupNames_canonE (sortC : Bool) {m : Entries}
    (h : nodupNames m = true) : nodupNames (canonE sortC m) = true := by
  rw [nodupNames_iff, entryNames_canonE]
  exact (nodupNames_iff m).mp h

theorem sortEntries_idem (m : Entries) :
    sortEntries (sortEntries m) = sortEntries m := by
  rw [sortEntries, sortEntries, entriesToList_ofList]
  congr 1
  exact List.Sorted.insertionSort_eq
    (List.sorted_insertionSort entryLe (entriesToList m))

mutual

theorem wf_canonV (v : Value) : ∀ (sortC : Bool) (t : Ty),
    wfPayload t v = true → wfPayload t (canonV sortC v) = true := by
  intro sortC t hwf
  match v with
  | .vNil | .vByte _ | .vShort _ | .vInt _ | .vLong _ | .vFloat _ | .vDouble _
  | .vByteArray _ | .vString _ | .vIntArray _ | .vLongArray _ =>
    simpa [canonV] using hwf
  | .vList l =>
    cases t <;> simp [wfPayload] at hwf
    simp [canonV, wfPayload, wf_canonL l sortC hwf]
  | .vCompound m =>
    cases t <;> simp [wfPayload] at hwf
    obtain ⟨hwfE, hnd⟩ := hwf
    have h1 := wf_canonE m sortC hwfE
    have h2 := nodupNames_canonE sortC hnd
    cases sortC with
    | false => simp [canonV, wfPayload, h1, h2]
    | true =>
      simp [canonV, wfPayload, wfEntries_sortEntries h1,
        nodupNames_sortEntries h2]

theorem wf_canonL (l : NbtList) : ∀ (sortC : Bool),
    wfList l = true → wfList (canonL sortC l) = true := by
  intro sortC hwf
  match l with
  | .mk t a =>
    cases t <;> cases a <;> simp [wfList] at hwf <;>
      simp [canonL, canonA, wfList]
    · exact hwf
    · exact hwf
    · exact hwf
    · exact hwf
    · exact hwf
    · exact hwf
    · exact hwf
    · exact hwf
    · obtain ⟨h1, h2⟩ := hwf
      rename_i xs
      refine ⟨by simpa [listsLen_canonLs] using h1, wf_canonLs xs sortC h2⟩
    · obtain ⟨h1, h2⟩ := hwf
      rename_i xs
      refine ⟨by simpa [compoundsLen_canonCs] using h1, wf_canonCs xs sortC h2⟩
    · exact hwf
    · exact hwf

theorem wf_canonLs (xs : Lists) : ∀ (sortC : Bool),
    wfLists xs = true → wfLists (canonLs sortC xs) = true := by
  intro sortC hwf
  match xs with
  | .nil => rfl
  | .cons l rest =>
    have h2 : wfList l = true ∧ wfLists rest = true := by
      simpa [wfLists] using hwf
    simp [canonLs, wfLists, wf_canonL l sortC h2.1, wf_canonLs rest sortC h2.2]

theorem wf_canonCs (xs : Compounds) : ∀ (sortC : Bool),
    wfCompounds xs = true → wfCompounds (canonCs sortC xs) = true := by
  intro sortC hwf
  match xs with
  | .nil => rfl
  | .cons m rest =>
    have h2 : wfEntries m = true ∧ nodupNames m = true ∧ wfCompounds rest = true := by
      simpa [wfCompounds, Bool.and_assoc, and_assoc] using hwf
    obtain ⟨hwfE, hnd, hwfrest⟩ := h2
    have h1 := wf_canonE m sortC hwfE
    have h3 := nodupNames_canonE sortC hnd
    cases sortC with
    | false =>
      simp [canonCs, wfCompounds, h1, h3, wf_canonCs rest false hwfrest]
    | true =>
      simp only [canonCs, if_pos]
      simp [wfCompounds, wfEntries_sortEntries h1, nodupNames_sortEntries h3,
        wf_canonCs rest true hwfrest]

theorem wf_canonE (m : Entries) : ∀ (sortC : Bool),
    wfEntries m = true → wfEntries (canonE sortC m) = true := by
  intro sortC hwf
  match m with
  | .nil => rfl
  | .cons name t v rest =>
    have h2 : (t == Ty.TypeEnd) = false ∧ nameOk name = true ∧
        wfPayload t v = true ∧ wfEntries rest = true := by
      simpa [wfEntries, Bool.and_assoc, Bool.not_eq_true'] using hwf
    obtain ⟨htne, hname, hpay, hrest⟩ := h2
    simp [canonE, wfEntries, htne, hname, wf_canonV v sortC t hpay,
      wf_canonE rest sortC hrest]

end

mutual

theorem canonV_false (v : Value) : canonV false v = v := by
  match v with
  | .vNil | .vByte _ | .vShort _ | .vInt _ | .vLong _ | .vFloat _ | .vDouble _
  | .vByteArray _ | .vString _ | .vIntArray _ | .vLongArray _ => rfl
  | .vList l => simp [canonV, canonL_false l]
  | .vCompound m => simp [canonV, canonE_false m]

theorem canonL_false (l : NbtList) : canonL false l = l := by
  match l with
  | .mk t a => simp [canonL, canonA_false a]

theorem canonA_false (a : Arr) : canonA false a = a := by
  match a with
  | .aNil | .aByte _ | .aShort _ | .aInt _ | .aLong _ | .aFloat _ | .aDouble _
  | .aByteArray _ | .aString _ | .aIntArray _ | .aLongArray _ => rfl
  | .aList xs => simp [canonA, canonLs_false xs]
  | .aCompound xs => simp [canonA, canonCs_false xs]

theorem canonLs_false (xs : Lists) : canonLs false xs = xs := by
  match xs with
  | .nil => rfl
  | .cons l rest => simp [canonLs, canonL_false l, canonLs_false rest]

theorem canonCs_false (xs : Compounds) : canonCs false xs = xs := by
  match xs with
  | .nil => rfl
  | .cons m rest => simp [canonCs, canonE_false m, canonCs_false rest]

theorem canonE_false (m : Entries) : canonE false m = m := by
  match m with
  | .nil => rfl
  | .cons name t v rest => simp [canonE, canonV_false v, canonE_false rest]

end

mutual

theorem canonV_idem (v : Value) : canonV true (canonV true v) = canonV true v := by
  match v with
  | .vNil | .vByte _ | .vShort _ | .vInt _ | .vLong _ | .vFloat _ | .vDouble _
  | .vByteArray _ | .vString _ | .vIntArray _ | .vLongArray _ => rfl
  | .vList l => simp [canonV, canonL_idem l]
  | .vCompound m =>
    simp only [canonV, if_pos]
    rw [canonE_sortEntries, canonE_idem m, sortEntries_idem]

theorem canonL_idem (l : NbtList) : canonL true (canonL true l) = canonL true l := by
  match l with
  | .mk t a => simp [canonL, canonA_idem a]

theorem canonA_idem (a : Arr) : canonA true (canonA true a) = canonA true a := by
  match a with
  | .aNil | .aByte _ | .aShort _ | .aInt _ | .aLong _ | .aFloat _ | .aDouble _
  | .aByteArray _ | .aString _ | .aIntArray _ | .aLongArray _ => rfl
  | .aList xs => simp [canonA, canonLs_idem xs]
  | .aCompound xs => simp [canonA, canonCs_idem xs]

theorem canonLs_idem (xs : Lists) : canonLs true (canonLs true xs) = canonLs true xs := by
  match xs with
  | .nil => rfl
  | .cons l rest => simp [canonLs, canonL_idem l, canonLs_idem rest]

theorem canonCs_idem (xs : Compounds) :
    canonCs true (canonCs true xs) = canonCs true xs := by
  match xs with
  | .nil => rfl
  | .cons m rest =>
    simp only [canonCs, if_pos]
    rw [canonE_sortEntries, canonE_idem m, sortEntries_idem, canonCs_idem rest]

theorem canonE_idem (m : Entries) : canonE true (canonE true m) = canonE true m := by
  match m with
  | .nil => rfl
  | .cons name t v rest => simp [canonE, canonV_idem v, canonE_idem rest]

end

theorem canonV_canonV (sortC : Bool) (v : Value) :
    canonV true (canonV sortC v) = canonV true v := by
  cases sortC with
  | false => rw [canonV_false]
  | true => exact canonV_idem v

/-! ## The binary round trip -/

/-- Core round-trip fact: encoding a well-formed tree succeeds, and
decoding the produced stream consumes it entirely and returns the tree
with every compound's entries sorted when sorted mode was used and
untouched otherwise. -/
theorem decode_encode (sortC : Bool) (tag : NamedTag) (h : wfNT tag = true) :
    Encode sortC tag = some (rawNT (canonNT sortC tag)) ∧
      Decode (rawNT (canonNT sortC tag)) = .ok (canonNT sortC tag, []) := by
  obtain ⟨t, name, v⟩ := tag
  by_cases ht : t = Ty.TypeEnd
  · subst ht
    have h2 : name = [] ∧ wfPayload Ty.TypeEnd v = true := by
      simpa [wfNT] using h
    obtain ⟨hn, hp⟩ := h2
    subst hn
    have hv : v = Value.vNil := by
      cases v <;> simp [wfPayload] at hp
      rfl
    subst hv
    constructor
    · rw [Encode, writeNamedTag_end sortC (by norm_num [eszNT, eszV])]
      rfl
    · rw [Decode]
      have : rawNT (canonNT sortC ⟨Ty.TypeEnd, [], Value.vNil⟩) = [0] := rfl
      rw [this]
      exact readNamedTag_zero (by norm_num) []
  · have h2 : nameOk name = true ∧ wfPayload t v = true := by
      simpa [wfNT, ht] using h
    obtain ⟨hname, hpay⟩ := h2
    have hnlen : name.length ≤ maxShort := by
      simp [nameOk] at hname
      exact hname.1
    have henc := encV_ok v sortC t name hpay ht hname
      (eszNT ⟨t, name, v⟩) (by simp [eszNT])
    refine ⟨henc, ?_⟩
    have hpay' : wfPayload t (canonV sortC v) = true := wf_canonV v sortC t hpay
    have hwfy : wfNT (canonNT sortC ⟨t, name, v⟩) = true := by
      simp [wfNT, canonNT, ht, hname, hpay']
    have hfuel : 1 + dszV (canonV sortC v)
        ≤ (rawNT (canonNT sortC ⟨t, name, v⟩)).length + 1 := by
      have h3 := dszNT_le (canonNT sortC ⟨t, name, v⟩) hwfy
      simp only [dszNT, canonNT] at h3 ⊢
      omega
    have hdec := decV_ok (canonV sortC v) t name hpay' ht hnlen
      ((rawNT (canonNT sortC ⟨t, name, v⟩)).length + 1) hfuel []
    rw [Decode]
    simpa [canonNT] using hdec

/-- C1: for every tree satisfying the data-model invariants, in either
compound-ordering mode, `Decode (Encode T)` succeeds, consumes the whole
stream, and returns a tree structurally equal to `T` up to the order of
compound members: the decoded tree and `T` coincide once the compounds of
both are put in sorted order (and in unsorted mode the decoded tree is
`T` itself, `canonNT false T = T`). -/
theorem C1_binary_roundtrip (sortC : Bool) (tag : NamedTag)
    (h : wfNT tag = true) :
    ∃ bs tag', Encode sortC tag = some bs ∧ Decode bs = .ok (tag', []) ∧
      canonNT true tag' = canonNT true tag := by
  obtain ⟨henc, hdec⟩ := decode_encode sortC tag h
  refine ⟨rawNT (canonNT sortC tag), canonNT sortC tag, henc, hdec, ?_⟩
  obtain ⟨t, name, v⟩ := tag
  simp [canonNT, canonV_canonV]

/-- The example tree used in concrete witnesses: a Compound named "root"
holding Short "health" = 20 and String "name" = "Steve" (entries listed in
non-sorted order, as a Go map may iterate them). -/
def exampleTag : NamedTag :=
  ⟨Ty.TypeCompound, [114, 111, 111, 116],
    .vCompound (.cons [110, 97, 109, 101] Ty.TypeString
      (.vString [83, 116, 101, 118, 101])
      (.cons [104, 101, 97, 108, 116, 104] Ty.TypeShort (.vShort 20) .nil))⟩

theorem C1_binary_roundtrip_witness :
    wfNT exampleTag = true ∧
      (∃ bs tag', Encode true exampleTag = some bs ∧
        Decode bs = .ok (tag', []) ∧
        canonNT true tag' = canonNT true exampleTag) :=
  ⟨by decide, C1_binary_roundtrip true exampleTag (by decide)⟩

/-! ## Sorted-encode determinism -/

/-- Two entry sequences holding the same bindings sort identically when
names are not repeated. -/
theorem sortEntries_eq_of_perm {m₁ m₂ : Entries}
    (hperm : (entriesToList m₁).Perm (entriesToList m₂))
    (hnd : nodupNames m₁ = true) :
    sortEntries m₁ = sortEntries m₂ := by
  rw [sortEntries, sortEntries]
  congr 1
  have hp : (List.insertionSort entryLe (entriesToList m₁)).Perm
      (List.insertionSort entryLe (entriesToList m₂)) :=
    ((List.perm_insertionSort entryLe (entriesToList m₁)).trans hperm).trans
      (List.perm_insertionSort entryLe (entriesToList m₂)).symm
  have hs₁ := List.sorted_insertionSort entryLe (entriesToList m₁)
  have hs₂ := List.sorted_insertionSort entryLe (entriesToList m₂)
  have hndmap₁ : ((entriesToList m₁).map (·.1)).Nodup := by
    rw [← entryNames_eq_map]
    exact (nodupNames_iff m₁).mp hnd
  have hndmap₂ : ((entriesToList m₂).map (·.1)).Nodup :=
    ((hperm.map (·.1)).nodup_iff).mp hndmap₁
  have hne₁ : (List.insertionSort entryLe (entriesToList m₁)).Pairwise
      (fun a b : Entry => a.1 ≠ b.1) := by
    have hnd' : ((List.insertionSort entryLe (entriesToList m₁)).map (·.1)).Nodup :=
      (((List.perm_insertionSort entryLe (entriesToList m₁)).map (·.1)).nodup_iff).mpr
        hndmap₁
    rw [List.Nodup, List.pairwise_map] at hnd'
    exact hnd'
  have hne₂ : (List.insertionSort entryLe (entriesToList m₂)).Pairwise
      (fun a b : Entry => a.1 ≠ b.1) := by
    have hnd' : ((List.insertionSort entryLe (entriesToList m₂)).map (·.1)).Nodup :=
      (((List.perm_insertionSort entryLe (entriesToList m₂)).map (·.1)).nodup_iff).mpr
        hndmap₂
    rw [List.Nodup, List.pairwise_map] at hnd'
    exact hnd'
  haveI : IsAntisymm Entry (fun a b : Entry => entryLe a b ∧ a.1 ≠ b.1) :=
    ⟨fun a b hab hba => absurd (le_antisymm hab.1 hba.1) hab.2⟩
  exact List.eq_of_perm_of_sorted hp (hs₁.and hne₁) (hs₂.and hne₂)

/-- C8: in sorted-compound mode, `writeCompound` emits byte-identical
output on any two iteration orders of the same compound (entry sequences
that are permutations of each other, with no duplicate names). -/
theorem C8_sorted_encode_deterministic (m₁ m₂ : Entries) (fuel : Nat)
    (hperm : (entriesToList m₁).Perm (entriesToList m₂))
    (hnd : nodupNames m₁ = true) :
    writeCompound true fuel m₁ = writeCompound true fuel m₂ := by
  match fuel with
  | 0 => rfl
  | f + 1 =>
    simp only [writeCompound, if_true]
    rw [sortEntries_eq_of_perm hperm hnd]

/-- Two iteration orders of the example compound. -/
def exEntriesA : Entries :=
  .cons [110, 97, 109, 101] Ty.TypeString (.vString [83, 116, 101, 118, 101])
    (.cons [104, 101, 97, 108, 116, 104] Ty.TypeShort (.vShort 20) .nil)

def exEntriesB : Entries :=
  .cons [104, 101, 97, 108, 116, 104] Ty.TypeShort (.vShort 20)
    (.cons [110, 97, 109, 101] Ty.TypeString (.vString [83, 116, 101, 118, 101]) .nil)

theorem C8_sorted_encode_deterministic_witness :
    (entriesToList exEntriesA).Perm (entriesToList exEntriesB) ∧
      nodupNames exEntriesA = true ∧
      writeCompound true 9 exEntriesA = writeCompound true 9 exEntriesB :=
  ⟨by decide, by decide,
    C8_sorted_encode_deterministic exEntriesA exEntriesB 9 (by decide) (by decide)⟩

/-! ## The remaining binary-codec claims -/

/-- C3: contrary to the spec's List-of-End invariant, the canonical
decoder (`decode.go`) accepts an `End`-typed list header with a nonzero
declared count: its `readList` `TypeEnd` arm performs no count check, so
the 8-byte stream `09 0000 00 00000005` (unnamed `List` tag, element type
`End`, count 5) decodes successfully to an empty list instead of failing
with a format error.  A zero count also decodes to the empty list (on
this part decoder and spec agree). -/
theorem C3_list_of_end_decode :
    Decode [9, 0, 0, 0, 0, 0, 0, 5]
        = .ok (⟨Ty.TypeList, [], .vList ⟨Ty.TypeEnd, Arr.aNil⟩⟩, []) ∧
      Decode [9, 0, 0, 0, 0, 0, 0, 0]
        = .ok (⟨Ty.TypeList, [], .vList ⟨Ty.TypeEnd, Arr.aNil⟩⟩, []) :=
  ⟨rfl, rfl⟩

/-- C6: a negative value in the signed length field of a String,
ByteArray, IntArray, LongArray or List makes the respective reader fail
with the negative-length format error, for every stream and (for lists)
every fuel budget; no empty collection or partial result is returned. -/
theorem C6_negative_length_rejected :
    (∀ b1 b2 rest, signedOfNat 16 (natOfBytes [b1, b2]) < 0 →
      readString (b1 :: b2 :: rest) = .error .negativeLength) ∧
    (∀ b1 b2 b3 b4 rest, signedOfNat 32 (natOfBytes [b1, b2, b3, b4]) < 0 →
      readByteArray (b1 :: b2 :: b3 :: b4 :: rest) = .error .negativeLength) ∧
    (∀ b1 b2 b3 b4 rest, signedOfNat 32 (natOfBytes [b1, b2, b3, b4]) < 0 →
      readIntArray (b1 :: b2 :: b3 :: b4 :: rest) = .error .negativeLength) ∧
    (∀ b1 b2 b3 b4 rest, signedOfNat 32 (natOfBytes [b1, b2, b3, b4]) < 0 →
      readLongArray (b1 :: b2 :: b3 :: b4 :: rest) = .error .negativeLength) ∧
    (∀ tb b1 b2 b3 b4 rest fuel, signedOfNat 32 (natOfBytes [b1, b2, b3, b4]) < 0 →
      readList (fuel + 1) (tb :: b1 :: b2 :: b3 :: b4 :: rest)
        = .error .negativeLength) := by
  refine ⟨?_, ?_, ?_, ?_, ?_⟩
  · intro b1 b2 rest h
    simp [readString, readIntBE, takeN, h]
  · intro b1 b2 b3 b4 rest h
    simp [readByteArray, readIntBE, takeN, h]
  · intro b1 b2 b3 b4 rest h
    simp [readIntArray, readIntBE, takeN, h]
  · intro b1 b2 b3 b4 rest h
    simp [readLongArray, readIntBE, takeN, h]
  · intro tb b1 b2 b3 b4 rest fuel h
    simp [readList, readIntBE, takeN, h]

theorem C6_negative_length_rejected_witness :
    signedOfNat 16 (natOfBytes [255, 255]) < 0 ∧
      signedOfNat 32 (natOfBytes [255, 255, 255, 255]) < 0 ∧
      readString [255, 255] = .error .negativeLength ∧
      readByteArray [255, 255, 255, 255] = .error .negativeLength ∧
      readIntArray [255, 255, 255, 255] = .error .negativeLength ∧
      readLongArray [255, 255, 255, 255] = .error .negativeLength ∧
      readList 1 [1, 255, 255, 255, 255] = .error .negativeLength :=
  ⟨by decide, by decide,
    C6_negative_length_rejected.1 255 255 [] (by decide),
    C6_negative_length_rejected.2.1 255 255 255 255 [] (by decide),
    C6_negative_length_rejected.2.2.1 255 255 255 255 [] (by decide),
    C6_negative_length_rejected.2.2.2.1 255 255 255 255 [] (by decide),
    C6_negative_length_rejected.2.2.2.2 1 255 255 255 255 [] 0 (by decide)⟩

/-- C7: `writeString` rejects byte strings longer than 32767 and
`writeLength` (used by every 32-bit-length writer) rejects lengths above
`2^31 - 1`, before emitting anything; and whenever they do emit, the
length field holds the exact length — never a truncation. -/
theorem C7_length_limits :
    (∀ s : List Nat, s.length > maxShort → writeString s = none) ∧
    (∀ n : Nat, n > maxInt32 → writeLength n = none) ∧
    (∀ b : List Nat, b.length > maxInt32 → writeByteArray b = none) ∧
    (∀ a : List Int, a.length > maxInt32 → writeIntArray a = none) ∧
    (∀ a : List Int, a.length > maxInt32 → writeLongArray a = none) ∧
    (∀ s bs, writeString s = some bs → bs = intBytes 2 (s.length : Int) ++ s) ∧
    (∀ n bs, writeLength n = some bs → bs = intBytes 4 (n : Int)) := by
  refine ⟨?_, ?_, ?_, ?_, ?_, ?_, ?_⟩
  · intro s h
    simp [writeString, h]
  · intro n h
    simp [writeLength, h]
  · intro b h
    simp [writeByteArray, writeLength, h]
  · intro a h
    simp [writeIntArray, writeLength, h]
  · intro a h
    simp [writeLongArray, writeLength, h]
  · intro s bs h
    rw [writeString] at h
    by_cases hc : s.length > maxShort
    · simp [hc] at h
    · simp [hc] at h
      exact h.symm
  · intro n bs h
    rw [writeLength] at h
    by_cases hc : n > maxInt32
    · simp [hc] at h
    · simp [hc] at h
      exact h.symm

theorem C7_length_limits_witness :
    (List.replicate 32768 (0 : Nat)).length > maxShort ∧
      writeString (List.replicate 32768 (0 : Nat)) = none ∧
      (2147483648 : Nat) > maxInt32 ∧
      writeLength 2147483648 = none ∧
      ([0, 2, 97, 98] : List Nat)
        = intBytes 2 ((([97, 98] : List Nat).length : Nat) : Int) ++ [97, 98] :=
  ⟨by rw [gt_iff_lt, List.length_replicate]; decide,
   C7_length_limits.1 _ (by rw [gt_iff_lt, List.length_replicate]; decide),
   by decide, C7_length_limits.2.1 _ (by decide),
   C7_length_limits.2.2.2.2.2.1 [97, 98] [0, 2, 97, 98] (by decide)⟩

/-! ## Encoder type-mismatch behaviour -/

/-- A declared tag type whose payload the encoder downcasts with a type
assertion (the composite kinds); scalar kinds go straight to
`binary.Write` with the stored payload. -/
def compositeTy : Ty → Bool
  | .TypeByteArray | .TypeString | .TypeList | .TypeCompound
  | .TypeIntArray | .TypeLongArray => true
  | _ => false

/-- Whether a payload's dynamic kind satisfies the type assertion
`writeNamedTag` performs for a composite declared type. -/
def payloadMatches : Ty → Value → Bool
  | .TypeByteArray, .vByteArray _ => true
  | .TypeString, .vString _ => true
  | .TypeList, .vList _ => true
  | .TypeCompound, .vCompound _ => true
  | .TypeIntArray, .vIntArray _ => true
  | .TypeLongArray, .vLongArray _ => true
  | _, _ => false

/-- Whether a list's dynamic array satisfies the type assertion
`writeList` performs for a composite declared element type. -/
def arrMatches : Ty → Arr → Bool
  | .TypeByteArray, .aByteArray _ => true
  | .TypeString, .aString _ => true
  | .TypeList, .aList _ => true
  | .TypeCompound, .aCompound _ => true
  | .TypeIntArray, .aIntArray _ => true
  | .TypeLongArray, .aLongArray _ => true
  | _, _ => false

theorem writeNamedTag_mismatch (sortC : Bool) (fuel : Nat) (name : List Nat)
    (t : Ty) (v : Value)
    (h1 : compositeTy t = true) (h2 : payloadMatches t v = false) :
    writeNamedTag sortC fuel ⟨t, name, v⟩ = none := by
  match fuel with
  | 0 => rfl
  | f + 1 =>
    cases t <;> simp [compositeTy] at h1 <;>
      cases v <;> simp [payloadMatches] at h2 <;>
        (cases hw : writeString name <;> simp [writeNamedTag, hw])

theorem writeList_mismatch (sortC : Bool) (fuel : Nat) (t : Ty) (a : Arr)
    (h1 : compositeTy t = true) (h2 : arrMatches t a = false) :
    writeList sortC (fuel + 1) ⟨t, a⟩ = none := by
  cases t <;> simp [compositeTy] at h1 <;>
    cases a <;> simp [arrMatches] at h2 <;>
      (simp only [writeList, listLength, arrLength, NbtList.t, NbtList.a]
       repeat' split
       all_goals simp_all)

/-- C4 counterexample: the encoder does not verify scalar payloads against
their declared tag type.  A tag declared `Byte` whose payload is the `Int`
1 encodes without error into a miscoded stream whose payload field is four
bytes wide, and a list declared to hold `Byte` elements whose dynamic
array holds `Short`s writes two bytes per element under a `Byte` element
tag. -/
theorem C4_counterexample :
    Encode false ⟨Ty.TypeByte, [97], .vInt 1⟩ = some [1, 0, 1, 97, 0, 0, 0, 1] ∧
      writeList false 2 ⟨Ty.TypeByte, .aShort [5]⟩ = some [1, 0, 0, 0, 1, 0, 5] :=
  ⟨rfl, rfl⟩

/-- C4 (amended): only composite-declared tags are checked against their
payloads.  When a tag declares a composite type (`ByteArray`, `String`,
`List`, `Compound`, `IntArray`, `LongArray`) and the payload's dynamic
kind differs, `writeNamedTag` fails with an encode error and emits
nothing; likewise `writeList` for a composite declared element type whose
dynamic array mismatches.  (Scalar-declared tags hand the stored payload
to `binary.Write` unchecked — see the counterexample.) -/
theorem C4_composite_mismatch_rejected :
    (∀ sortC fuel name t v, compositeTy t = true → payloadMatches t v = false →
        writeNamedTag sortC fuel ⟨t, name, v⟩ = none) ∧
    (∀ sortC fuel t a, compositeTy t = true → arrMatches t a = false →
        writeList sortC (fuel + 1) ⟨t, a⟩ = none) :=
  ⟨fun sortC fuel name t v h1 h2 => writeNamedTag_mismatch sortC fuel name t v h1 h2,
   fun sortC fuel t a h1 h2 => writeList_mismatch sortC fuel t a h1 h2⟩

theorem C4_composite_mismatch_rejected_witness :
    compositeTy Ty.TypeString = true ∧
      payloadMatches Ty.TypeString (.vInt 3) = false ∧
      writeNamedTag false 5 ⟨Ty.TypeString, [], .vInt 3⟩ = none ∧
      compositeTy Ty.TypeCompound = true ∧
      arrMatches Ty.TypeCompound (.aByte []) = false ∧
      writeList false 1 ⟨Ty.TypeCompound, .aByte []⟩ = none :=
  ⟨by decide, by decide,
    C4_composite_mismatch_rejected.1 false 5 [] Ty.TypeString (.vInt 3)
      (by decide) (by decide),
    by decide, by decide,
    C4_composite_mismatch_rejected.2 false 0 Ty.TypeCompound (.aByte [])
      (by decide) (by decide)⟩

/-! ## The worked example (`"root"` compound) -/

/-- C5 counterexample: the byte sequence given in the spec ends in two
`0x00` bytes ("inner End, outer End"), but `writeCompound` emits exactly
one `End` terminator for the compound and `writeNamedTag` adds no outer
terminator of its own, so the spec's sequence has one trailing `0x00` too
many. -/
theorem C5_counterexample :
    Encode true exampleTag ≠
      some [10, 0, 4, 114, 111, 111, 116,
            2, 0, 6, 104, 101, 97, 108, 116, 104, 0, 20,
            8, 0, 4, 110, 97, 109, 101, 0, 5, 83, 116, 101, 118, 101,
            0, 0] := by decide

/-- C5 (amended): encoding, in sorted-compound mode, the Compound named
`"root"` holding Short `"health"` = 20 and String `"name"` = `"Steve"`
produces exactly `0x0A 0x0004 "root" 0x02 0x0006 "health" 0x0014 0x08
0x0004 "name" 0x0005 "Steve" 0x00` — the entries in sorted name order and
a single terminating `End` byte. -/
theorem C5_example_encoding :
    Encode true exampleTag =
      some [10, 0, 4, 114, 111, 111, 116,
            2, 0, 6, 104, 101, 97, 108, 116, 104, 0, 20,
            8, 0, 4, 110, 97, 109, 101, 0, 5, 83, 116, 101, 118, 101,
            0] := by decide

/-! ## Root kinds accepted by the decoder -/

/-- One well-formed top-level stream per tag kind: type byte, empty name,
then a minimal payload of that kind. -/
def sampleStream : Ty → List Nat
  | .TypeEnd => [0]
  | .TypeByte => [1, 0, 0, 7]
  | .TypeShort => [2, 0, 0, 0, 7]
  | .TypeInt => [3, 0, 0, 0, 0, 0, 7]
  | .TypeLong => [4, 0, 0, 0, 0, 0, 0, 0, 0, 0, 7]
  | .TypeFloat => [5, 0, 0, 63, 128, 0, 0]
  | .TypeDouble => [6, 0, 0, 64, 0, 0, 0, 0, 0, 0, 0]
  | .TypeByteArray => [7, 0, 0, 0, 0, 0, 1, 42]
  | .TypeString => [8, 0, 0, 0, 1, 97]
  | .TypeList => [9, 0, 0, 1, 0, 0, 0, 1, 5]
  | .TypeCompound => [10, 0, 0, 0]
  | .TypeIntArray => [11, 0, 0, 0, 0, 0, 1, 0, 0, 0, 9]
  | .TypeLongArray => [12, 0, 0, 0, 0, 0, 1, 0, 0, 0, 0, 0, 0, 0, 9]

/-- C9: the canonical decoder accepts a well-formed top-level NamedTag of
any of the twelve value kinds — it never enforces the document convention
that the root be a Compound (that check existed only in the historical
variant's `Decode`, which returned `ErrInvalidRoot` on a non-Compound
first byte).  First part: the encoding of every well-formed tree decodes
successfully with the root kind preserved.  Second part: a concrete
minimal stream of each non-End kind decodes successfully to a root of
that kind. -/
theorem C9_decoder_accepts_all_root_kinds :
    (∀ tag : NamedTag, wfNT tag = true →
        ∃ tag', Decode (rawNT (canonNT false tag)) = .ok (tag', []) ∧
          tag'.typ = tag.typ) ∧
    (∀ t : Ty, t ≠ Ty.TypeEnd →
        ∃ tag rest, Decode (sampleStream t) = .ok (tag, rest) ∧ tag.typ = t) := by
  constructor
  · intro tag h
    refine ⟨canonNT false tag, (decode_encode false tag h).2, ?_⟩
    cases tag
    rfl
  · intro t h
    cases t
    · exact absurd rfl h
    all_goals exact ⟨_, _, rfl, rfl⟩

theorem C9_decoder_accepts_all_root_kinds_witness :
    wfNT ⟨Ty.TypeByte, [], .vByte 7⟩ = true ∧
      (∃ tag', Decode (rawNT (canonNT false ⟨Ty.TypeByte, [], .vByte 7⟩))
          = .ok (tag', []) ∧ tag'.typ = Ty.TypeByte) ∧
      Ty.TypeFloat ≠ Ty.TypeEnd ∧
      (∃ tag rest, Decode (sampleStream Ty.TypeFloat) = .ok (tag, rest) ∧
        tag.typ = Ty.TypeFloat) :=
  ⟨by decide,
    C9_decoder_accepts_all_root_kinds.1 ⟨Ty.TypeByte, [], .vByte 7⟩ (by decide),
    by decide,
    C9_decoder_accepts_all_root_kinds.2 Ty.TypeFloat (by decide)⟩

/-! ## The JSON bridge (`types.go`): `strconv` decimal text

`byteArray.MarshalJSON` renders each byte with
`strconv.FormatUint(uint64(n), 10)` into a JSON array of strings, and
`byteArray.UnmarshalJSON` parses each element with
`strconv.ParseUint(s, 10, 8)`; the `TypeByte` arms of
`payloadMarshalJSON` / `payloadUnmarshalJSON` use
`strconv.FormatInt(int64(payload.(int8)), 10)` and
`strconv.ParseInt(s, 10, 8)`.  The `strconv` base-10 conversions are
modelled below from their documented behaviour (digits only for
`ParseUint`, an optional sign for `ParseInt`, out-of-range is an error);
the JSON array-of-strings framing is kept as the list of strings. -/

/-- One decimal digit character. -/
def digitChar (d : Nat) : Char := Char.ofNat (48 + d)

/-- Decimal digits of `n`, most significant first (the base-10 digit loop
of `strconv.FormatUint`); the first argument is structural fuel. -/
def natDigits : Nat → Nat → List Char
  | 0, _ => []
  | fuel + 1, n =>
    if n = 0 then [] else natDigits fuel (n / 10) ++ [digitChar (n % 10)]

/-- `strconv.FormatUint(n, 10)`. -/
def formatUint (n : Nat) : String :=
  if n = 0 then "0" else ⟨natDigits (n + 1) n⟩

/-- `strconv.FormatInt(n, 10)`. -/
def formatInt (n : Int) : String :=
  if n < 0 then ⟨List.cons (Char.ofNat 45) (formatUint n.natAbs).data⟩
  else formatUint n.toNat

/-- The numeric value of a decimal digit character, if it is one. -/
def digitVal (c : Char) : Option Nat :=
  if 48 ≤ c.toNat ∧ c.toNat ≤ 57 then some (c.toNat - 48) else none

/-- The digit-accumulation loop shared by `strconv.ParseUint` and
`strconv.ParseInt` in base 10: every character must be a digit. -/
def parseDigits : List Char → Nat → Option Nat
  | [], acc => some acc
  | c :: cs, acc =>
    match digitVal c with
    | none => none
    | some d => parseDigits cs (acc * 10 + d)

/-- `strconv.ParseUint(s, 10, bitSize)`: no sign, at least one digit, and
the value must fit in `bitSize` unsigned bits (overflow is an error, not
a wrap). -/
def parseUint (bitSize : Nat) (s : String) : Option Nat :=
  match s.data with
  | [] => none
  | cs =>
    match parseDigits cs 0 with
    | none => none
    | some v => if v < 2 ^ bitSize then some v else none

/-- `strconv.ParseInt(s, 10, bitSize)`: an optional leading sign, then the
digit loop, range-checked against the signed `bitSize`-bit bounds. -/
def parseInt (bitSize : Nat) (s : String) : Option Int :=
  match s.data with
  | [] => none
  | c :: cs =>
    let neg := c = Char.ofNat 45
    let digits := if c = Char.ofNat 45 ∨ c = Char.ofNat 43 then cs else c :: cs
    match digits with
    | [] => none
    | _ =>
      match parseDigits digits 0 with
      | none => none
      | some v =>
        if neg then
          if v ≤ 2 ^ (bitSize - 1) then some (-(v : Int)) else none
        else
          if v < 2 ^ (bitSize - 1) then some (v : Int) else none

/-- `byteArray.MarshalJSON`: every byte as unsigned decimal text. -/
def byteArrayMarshalJSON (b : List Nat) : List String :=
  b.map formatUint

/-- `byteArray.UnmarshalJSON`: every element string through
`strconv.ParseUint(s, 10, 8)`; the first failure aborts the whole
unmarshal. -/
def byteArrayUnmarshalJSON : List String → Option (List Nat)
  | [] => some []
  | s :: ss =>
    match parseUint 8 s with
    | none => none
    | some n =>
      match byteArrayUnmarshalJSON ss with
      | none => none
      | some ns => some (n :: ns)

/-- The `TypeByte` arm of `payloadMarshalJSON`. -/
def bytePayloadMarshalJSON (n : Int) : String := formatInt n

/-- The `TypeByte` arm of `payloadUnmarshalJSON`. -/
def bytePayloadUnmarshalJSON (s : String) : Option Int := parseInt 8 s

theorem parseUint8_formatUint : ∀ b < 256, parseUint 8 (formatUint b) = some b := by
  decide

theorem parseInt8_formatInt :
    ∀ k : Nat, k < 256 →
      parseInt 8 (formatInt ((k : Int) - 128)) = some ((k : Int) - 128) := by
  decide

theorem parseInt8_formatInt_all (n : Int) (h1 : -128 ≤ n) (h2 : n < 128) :
    parseInt 8 (formatInt n) = some n := by
  have hk : (((n + 128).toNat : Int)) - 128 = n := by omega
  have h256 : (n + 128).toNat < 256 := by omega
  have h := parseInt8_formatInt (n + 128).toNat h256
  rwa [hk] at h

theorem byteArray_json_roundtrip (bs : List Nat) (h : ∀ b ∈ bs, b < 256) :
    byteArrayUnmarshalJSON (byteArrayMarshalJSON bs) = some bs := by
  induction bs with
  | nil => rfl
  | cons b rest ih =>
    have hb : b < 256 := h b (List.mem_cons_self b rest)
    have hrest := ih (fun x hx => h x (List.mem_cons_of_mem b hx))
    simp only [byteArrayMarshalJSON, List.map_cons] at hrest ⊢
    rw [byteArrayUnmarshalJSON, parseUint8_formatUint b hb, hrest]

/-- C10: in the JSON bridge, ByteArray elements travel as unsigned 8-bit
decimal strings — marshalling then unmarshalling restores any list of
bytes 0–255, `"255"` parses, while `"256"` and a signed element string
such as `"-1"` are parse errors — whereas a scalar Byte payload travels
as signed 8-bit decimal text: every value −128…127 round-trips
(including `"-1"` and `"-128"`), and `"-129"` and `"128"` are parse
errors. -/
theorem C10_bytearray_unsigned_byte_signed :
    (∀ bs : List Nat, (∀ b ∈ bs, b < 256) →
        byteArrayUnmarshalJSON (byteArrayMarshalJSON bs) = some bs) ∧
    byteArrayUnmarshalJSON ["-1"] = none ∧
    parseUint 8 "255" = some 255 ∧
    parseUint 8 "256" = none ∧
    (∀ n : Int, -128 ≤ n → n < 128 →
        bytePayloadUnmarshalJSON (bytePayloadMarshalJSON n) = some n) ∧
    bytePayloadUnmarshalJSON "-1" = some (-1) ∧
    bytePayloadUnmarshalJSON "-128" = some (-128) ∧
    bytePayloadUnmarshalJSON "-129" = none ∧
    bytePayloadUnmarshalJSON "128" = none := by
  refine ⟨byteArray_json_roundtrip, by decide, by decide, by decide,
    fun n h1 h2 => parseInt8_formatInt_all n h1 h2, by decide, by decide,
    by decide, by decide⟩

theorem C10_bytearray_unsigned_byte_signed_witness :
    ((∀ b ∈ [0, 7, 255], b < 256) ∧
      byteArrayUnmarshalJSON (byteArrayMarshalJSON [0, 7, 255])
        = some [0, 7, 255]) ∧
      (-128 ≤ (-7 : Int) ∧ (-7 : Int) < 128 ∧
        bytePayloadUnmarshalJSON (bytePayloadMarshalJSON (-7)) = some (-7)) :=
  ⟨⟨by decide, C10_bytearray_unsigned_byte_signed.1 [0, 7, 255] (by decide)⟩,
   by decide, by decide,
   C10_bytearray_unsigned_byte_signed.2.2.2.2.1 (-7) (by decide) (by decide)⟩

end NBT
